import Mathlib

/-!
Verification development for the raylib-nbody gravity/integration core.

The C++ core is shallowly embedded over exact rationals: every `double` /
`float` of the source becomes a `ℚ` (numeric conversions between the two touch
nothing in the exact model), machine `int` becomes `ℤ`, and iteration over ECS
entities becomes iteration over lists of records.  Two irrational primitives of
the source, `std::sqrt` and the cube-root-based radius formula
`cbrt(3·max(1,m)/(4π·ρ))`, are not representable over `ℚ`; they are threaded
through the embedding as abstract function parameters `sq : ℚ → ℚ` and
`dr : ℚ → ℚ`, and every theorem quantifies over them.  IEEE special values do
not arise in exact arithmetic; the finiteness-sensitive diagnostics routine is
therefore embedded separately over `Option ℚ` (`none` = non-finite), which
models NaN/∞ propagation and division by zero, though not overflow of finite
doubles.  Explicit-stack traversals of the source are rendered as structural
recursion visiting the same nodes; where only the order of commutative `ℚ`
additions differs, the results coincide.
-/

/-! ## Spatial partition (Barnes–Hut quadtree), from SpatialPartition.hpp

A body snapshot handed to the tree: `struct Body { Vector2 pos; float mass;
int index; }`. -/

structure SPBody where
  posx : ℚ
  posy : ℚ
  mass : ℚ
  index : ℤ
deriving DecidableEq

/-- Quadtree node: center, half size, aggregate mass, aggregate center of
mass, and either a resident body slot (leaf) or four children in the order
NW, NE, SW, SE (`children[0..3]` of the source; a node has either no children
or all four, since `subdivide` creates all four at once and `is_leaf` tests
`!children[0]`). -/
inductive QNode where
  | leaf (cx cy hs mass comx comy : ℚ) (body : Option SPBody)
  | branch (cx cy hs mass comx comy : ℚ) (nw ne sw se : QNode)
deriving DecidableEq

def QNode.mass : QNode → ℚ
  | .leaf _ _ _ m _ _ _ => m
  | .branch _ _ _ m _ _ _ _ _ _ => m

def QNode.comx : QNode → ℚ
  | .leaf _ _ _ _ cox _ _ => cox
  | .branch _ _ _ _ cox _ _ _ _ _ => cox

def QNode.comy : QNode → ℚ
  | .leaf _ _ _ _ _ coy _ => coy
  | .branch _ _ _ _ _ coy _ _ _ _ => coy

/-- Quadrant selection (`SpatialPartition::get_quadrant`): `east` and `south`
use strict comparisons `point > center`; NW = 0, NE = 1, SW = 2, SE = 3. -/
def get_quadrant (cx cy px py : ℚ) : ℕ :=
  if cx < px then (if cy < py then 3 else 1)
  else (if cy < py then 2 else 0)

/-- Subdivision (`SpatialPartition::subdivide`): turn a node into an internal
node with four fresh empty leaves at the quarter centers; new nodes carry the
constructor defaults mass = 0, com = (0,0). -/
def subdivide (cx cy hs mass comx comy : ℚ) : QNode :=
  let h := hs * (1/2)
  QNode.branch cx cy hs mass comx comy
    (QNode.leaf (cx - h) (cy - h) h 0 0 0 none)
    (QNode.leaf (cx + h) (cy - h) h 0 0 0 none)
    (QNode.leaf (cx - h) (cy + h) h 0 0 0 none)
    (QNode.leaf (cx + h) (cy + h) h 0 0 0 none)

/-- Iterative insertion (`SpatialPartition::insert_iterative`) rendered as
fuelled recursion: an empty leaf receives the body; an occupied leaf is
subdivided, the previously-resident body is reinserted first (descending and
subdividing further while both bodies share a quadrant), then the new body's
insertion continues from the same node; an internal node descends to the
matching quadrant.  The source loops forever on inputs that force unbounded
subdivision (coincident points), which the fuel models as `none`. -/
def insertB (fuel : ℕ) (t : QNode) (b : SPBody) : Option QNode :=
  match fuel with
  | 0 => none
  | fuel + 1 =>
    match t with
    | .leaf cx cy hs m cox coy none => some (.leaf cx cy hs m cox coy (some b))
    | .leaf cx cy hs m cox coy (some ex) =>
      match insertB fuel (subdivide cx cy hs m cox coy) ex with
      | none => none
      | some t2 => insertB fuel t2 b
    | .branch cx cy hs m cox coy nw ne sw se =>
      match get_quadrant cx cy b.posx b.posy with
      | 0 => (insertB fuel nw b).map (fun c => .branch cx cy hs m cox coy c ne sw se)
      | 1 => (insertB fuel ne b).map (fun c => .branch cx cy hs m cox coy nw c sw se)
      | 2 => (insertB fuel sw b).map (fun c => .branch cx cy hs m cox coy nw ne c se)
      | _ => (insertB fuel se b).map (fun c => .branch cx cy hs m cox coy nw ne sw c)

/-- Accumulation step of the internal-node pass of
`aggregate_mass_com_iterative`: children with positive mass contribute their
mass and mass-weighted center of mass. -/
def aggChild (acc : ℚ × ℚ × ℚ) (c : QNode) : ℚ × ℚ × ℚ :=
  if 0 < c.mass then
    (acc.1 + c.mass, acc.2.1 + c.comx * c.mass, acc.2.2 + c.comy * c.mass)
  else acc

/-- Post-order aggregation pass (`aggregate_mass_com_iterative`), explicit
stack rendered as structural post-order recursion: a leaf takes its body's
mass and position (or zeros); an internal node sums mass and mass-weighted com
over children with positive mass, dividing by the mass sum when positive. -/
def aggregate : QNode → QNode
  | .leaf cx cy hs _ _ _ body =>
    match body with
    | some b => .leaf cx cy hs b.mass b.posx b.posy (some b)
    | none => .leaf cx cy hs 0 0 0 none
  | .branch cx cy hs _ _ _ nw ne sw se =>
    let n0 := aggregate nw
    let n1 := aggregate ne
    let n2 := aggregate sw
    let n3 := aggregate se
    let s := [n0, n1, n2, n3].foldl aggChild (0, 0, 0)
    let newComx := if 0 < s.1 then s.2.1 * (1 / s.1) else 0
    let newComy := if 0 < s.1 then s.2.2 * (1 / s.1) else 0
    QNode.branch cx cy hs s.1 newComx newComy n0 n1 n2 n3

/-- Tree construction (`SpatialPartition::build`): bounding box of all
positions, half size `max(width, height)/2` clamped to 1 when degenerate,
centered on the bbox midpoint; insert every body, then aggregate.  The source
seeds the min/max scan with `bodies[0]` and then folds over the whole list;
the fold here starts from the head's coordinates, which is the same scan. -/
def build (fuel : ℕ) (bodies : List SPBody) : Option QNode :=
  match bodies with
  | [] => none
  | b0 :: _ =>
    let minX := bodies.foldl (fun a b => min a b.posx) b0.posx
    let maxX := bodies.foldl (fun a b => max a b.posx) b0.posx
    let minY := bodies.foldl (fun a b => min a b.posy) b0.posy
    let maxY := bodies.foldl (fun a b => max a b.posy) b0.posy
    let size0 := max (maxX - minX) (maxY - minY) * (1/2)
    let size := if size0 ≤ 0 then 1 else size0
    let cx := (minX + maxX) * (1/2)
    let cy := (minY + maxY) * (1/2)
    let root : QNode := .leaf cx cy size 0 0 0 none
    (bodies.foldlM (fun t b => insertB fuel t b) root).map aggregate

/-- Force query (`SpatialPartition::compute_force`), explicit stack rendered
as recursion (the stack visits the same nodes; only the order of the
commutative `ℚ` additions differs).  Nodes with non-positive mass are skipped;
a leaf holding a body other than the target contributes the softened pairwise
term; an internal node is treated as a pseudo-body when
`(2·halfSize)/dist < θ`, else all children are visited.  In IEEE arithmetic
`(2·halfSize)/0 = +∞` compares false against θ, which the exact model renders
as the explicit `0 < dist` conjunct. -/
def compute_force (sq : ℚ → ℚ) (t : QNode) (target : SPBody) (theta G eps2 : ℚ) : ℚ × ℚ :=
  match t with
  | .leaf _ _ _ m _ _ body =>
    if m ≤ 0 then (0, 0)
    else
      match body with
      | none => (0, 0)
      | some b =>
        if b.index = target.index then (0, 0)
        else
          let dx := b.posx - target.posx
          let dy := b.posy - target.posy
          let r2 := dx * dx + dy * dy + eps2
          let invR := 1 / sq r2
          let invR3 := invR * invR * invR
          (G * b.mass * dx * invR3, G * b.mass * dy * invR3)
  | .branch _ _ hs m cox coy nw ne sw se =>
    if m ≤ 0 then (0, 0)
    else
      let dx := cox - target.posx
      let dy := coy - target.posy
      let dist := sq (dx * dx + dy * dy)
      if 0 < dist ∧ hs * 2 / dist < theta then
        let r2 := dx * dx + dy * dy + eps2
        let invR := 1 / sq r2
        let invR3 := invR * invR * invR
        (G * m * dx * invR3, G * m * dy * invR3)
      else
        let f0 := compute_force sq nw target theta G eps2
        let f1 := compute_force sq ne target theta G eps2
        let f2 := compute_force sq sw target theta G eps2
        let f3 := compute_force sq se target theta G eps2
        (f0.1 + f1.1 + f2.1 + f3.1, f0.2 + f1.2 + f2.2 + f3.2)

/-! ## World bodies and the collision resolver, from Collision.hpp (current
iteration: nbody::systems::Collision, inelastic-merge mode, kElastic = false)

A world body carries the ECS components of one entity: Position, Velocity,
Acceleration, PrevAcceleration, Mass, Pinned, and the optional Radius
component; `eid` is the flecs entity handle. -/

structure WBody where
  eid : ℕ
  px : ℚ
  py : ℚ
  vx : ℚ
  vy : ℚ
  ax : ℚ
  ay : ℚ
  pax : ℚ
  pay : ℚ
  mass : ℚ
  pinned : Bool
  radius : Option ℚ
deriving DecidableEq

instance : Inhabited WBody := ⟨⟨0, 0, 0, 0, 0, 0, 0, 0, 0, 0, false, none⟩⟩

/-- Radius lookup (`Collision::radius_of`): the Radius component if present,
else the density-derived radius.  The abstract `dr` stands for the source's
`cbrt(3·max(1,m)/(4π·body_density))`, which is irrational over `ℚ`. -/
def radius_of (dr : ℚ → ℚ) (b : WBody) : ℚ :=
  match b.radius with
  | some r => r
  | none => dr b.mass

/-- Snapshot entry (`Collision::resolve`'s local `BodyRef`). -/
structure BodyRef where
  eid : ℕ
  px : ℚ
  py : ℚ
  vx : ℚ
  vy : ℚ
  m : ℚ
  r : ℚ
  pinned : Bool
deriving DecidableEq

instance : Inhabited BodyRef := ⟨⟨0, 0, 0, 0, 0, 0, 0, false⟩⟩

/-- Snapshot record of one world body (`BodyRef{e, p.value, v.value, m.value,
radius_of(e, m), pin.value}`). -/
def refOf (dr : ℚ → ℚ) (b : WBody) : BodyRef :=
  ⟨b.eid, b.px, b.py, b.vx, b.vy, b.mass, radius_of dr b, b.pinned⟩

/-- Snapshot of dynamic bodies (`Collision::resolve`, first `w.each`): bodies
with finite position and mass (vacuous over `ℚ`) and positive mass, with the
radius resolved via `radius_of`. -/
def collisionSnapshot (dr : ℚ → ℚ) (world : List WBody) : List BodyRef :=
  world.filterMap fun b =>
    if 0 < b.mass then some (refOf dr b) else none

/-- Update of the entity with handle `e` in the world (flecs `get_mut`: a
no-op when the entity no longer exists, which the map reproduces). -/
def updW (e : ℕ) (f : WBody → WBody) (w : List WBody) : List WBody :=
  w.map fun b => if b.eid = e then f b else b

/-- Destruction of the entity with handle `e` (flecs `destruct`). -/
def delW (e : ℕ) (w : List WBody) : List WBody :=
  w.filter fun b => b.eid ≠ e

/-- State threaded through the pairwise collision pass: the mutable snapshot
array (functional), the `alive` flags, the world, and a ghost list of merge
events `(survivor handle, destroyed handle)` recording each executed merge.
The events list is instrumentation only: no definition reads it. -/
structure PassState where
  snap : ℕ → BodyRef
  alive : ℕ → Bool
  world : List WBody
  events : List (ℕ × ℕ)

/-- Merged component values of a survivor `S` absorbing `D` (`Collision::resolve`,
inelastic branch): combined mass, momentum-conserving velocity, mass-weighted
position, zeroed accelerations, OR-ed pinned flag, radius re-derived from the
new mass. -/
def mergedBody (dr : ℚ → ℚ) (S D : BodyRef) (b : WBody) : WBody :=
  let M := S.m + D.m
  { b with
    mass := M
    vx := (S.m * S.vx + D.m * D.vx) / M
    vy := (S.m * S.vy + D.m * D.vy) / M
    px := (S.m * S.px + D.m * D.px) / M
    py := (S.m * S.py + D.m * D.py) / M
    ax := 0, ay := 0, pax := 0, pay := 0
    pinned := S.pinned || D.pinned
    radius := some (dr M) }

/-- Updated snapshot record for the survivor (`Collision::resolve` lines
updating `S.m, S.v, S.p, S.pinned, S.r` after the merge). -/
def mergedRef (dr : ℚ → ℚ) (S D : BodyRef) : BodyRef :=
  let M := S.m + D.m
  { S with
    m := M
    vx := (S.m * S.vx + D.m * D.vx) / M
    vy := (S.m * S.vy + D.m * D.vy) / M
    px := (S.m * S.px + D.m * D.px) / M
    py := (S.m * S.py + D.m * D.py) / M
    pinned := S.pinned || D.pinned
    r := dr M }

/-- Body of the inner collision loop for the pair `(i, j)` in merge mode: skip
dead `j` (the source re-checks only `alive[j]` here), test overlap of current
snapshot records, pick the survivor by `(A.m >= B.m) || B.pinned`, do nothing
when both are pinned, otherwise merge: write the combined components to the
survivor entity, destroy the other entity, and update the snapshot.  `dist`
and the collision normal are computed but unused by the merge branch. -/
def pairStep (dr : ℚ → ℚ) (i j : ℕ) (st : PassState) : PassState :=
  if st.alive j = false then st
  else
    let A := st.snap i
    let B := st.snap j
    let dx := B.px - A.px
    let dy := B.py - A.py
    let rsum := A.r + B.r
    let dist2 := dx * dx + dy * dy
    if rsum * rsum < dist2 then st
    else
      let a_survives := (B.m ≤ A.m) || B.pinned
      let S := if a_survives then A else B
      let D := if a_survives then B else A
      if D.pinned && S.pinned then st
      else
        let sIdx := if a_survives then i else j
        let dIdx := if a_survives then j else i
        { snap := fun k => if k = sIdx then mergedRef dr S D else st.snap k
          alive := fun k => if k = dIdx then false else st.alive k
          world := delW D.eid (updW S.eid (mergedBody dr S D) st.world)
          events := st.events ++ [(S.eid, D.eid)] }

/-- Inner loop `for (j = i+1; j < n; ++j)`, as recursion on the remaining
count (`count = n - j` at entry). -/
def innerLoop (dr : ℚ → ℚ) (i : ℕ) : ℕ → ℕ → PassState → PassState
  | 0, _, st => st
  | c + 1, j, st => innerLoop dr i c (j + 1) (pairStep dr i j st)

/-- Outer loop `for (i = 0; i < n; ++i)`: a dead `i` skips its whole inner
loop. -/
def outerLoop (dr : ℚ → ℚ) (n : ℕ) : ℕ → ℕ → PassState → PassState
  | 0, _, st => st
  | c + 1, i, st =>
    let st2 := if st.alive i then innerLoop dr i (n - (i + 1)) (i + 1) st else st
    outerLoop dr n c (i + 1) st2

/-- Collision resolution (`Collision::resolve`) with the ghost event list:
snapshot the dynamic bodies, return unchanged when fewer than two, else run
the pairwise merge pass over the snapshot. -/
def resolveE (dr : ℚ → ℚ) (world : List WBody) : List WBody × List (ℕ × ℕ) :=
  let snapL := collisionSnapshot dr world
  let n := snapL.length
  if n < 2 then (world, [])
  else
    let st0 : PassState := ⟨fun k => snapL.getD k default, fun _ => true, world, []⟩
    let stF := outerLoop dr n n 0 st0
    (stF.world, stF.events)

/-- Collision resolution as the world transformer the physics step uses. -/
def resolve (dr : ℚ → ℚ) (world : List WBody) : List WBody :=
  (resolveE dr world).1

/-! ## Configuration (Config.hpp, current iteration) and gravity
(Physics::compute_gravity) -/

structure Config where
  g : ℚ
  softening : ℚ
  max_speed : ℚ
  bh_threshold : ℤ
  bh_theta : ℚ
  paused : Bool
  use_fixed_dt : Bool
  fixed_dt : ℚ
  time_scale : ℚ
  integrator : ℤ
  max_substep : ℚ
  max_substeps_per_frame : ℤ
deriving DecidableEq

/-- Validity filter of `compute_gravity`'s collecting `w.each`: finite
position/velocity (vacuous over `ℚ`) and positive finite mass. -/
def gravValid (b : WBody) : Bool := 0 < b.mass

/-- Valid bodies, in world order: the `positions`/`masses`/`pins`/`accPtrs`
arrays of the source share this indexing. -/
def validBodies (world : List WBody) : List WBody :=
  world.filter gravValid

/-- Softened pairwise acceleration contribution on a body at `(pix, piy)` from
a source of mass `mj` at `(pjx, pjy)`:
`G·m·dx·invR3, G·m·dy·invR3` with `r2 = dx² + dy² + ε²`, `invR3 = r2^(-3/2)`. -/
def pairAccel (sq : ℚ → ℚ) (G eps2 pix piy pjx pjy mj : ℚ) : ℚ × ℚ :=
  let dx := pjx - pix
  let dy := pjy - piy
  let r2 := dx * dx + dy * dy + eps2
  let invR := 1 / sq r2
  let invR3 := invR * invR * invR
  (G * mj * dx * invR3, G * mj * dy * invR3)

/-- List of index pairs `(i, j)` with `i < j < n` in the iteration order of
the source's double loop. -/
def pairIdx (n : ℕ) : List (ℕ × ℕ) :=
  (List.range n).flatMap fun i => ((List.range n).drop (i + 1)).map fun j => (i, j)

/-- One iteration of the exact pairwise accumulation loop: add the `i←j` term
to `acc i` unless `i` is pinned and the mirrored `j←i` term (`ax_j = -G·mᵢ·dx·invR3`)
to `acc j` unless `j` is pinned. -/
def gPairStep (sq : ℚ → ℚ) (G eps2 : ℚ) (pos : ℕ → ℚ × ℚ) (mass : ℕ → ℚ)
    (pin : ℕ → Bool) (p : ℕ × ℕ) (acc : ℕ → ℚ × ℚ) : ℕ → ℚ × ℚ :=
  let i := p.1
  let j := p.2
  let fi := pairAccel sq G eps2 (pos i).1 (pos i).2 (pos j).1 (pos j).2 (mass j)
  let fj := pairAccel sq G eps2 (pos j).1 (pos j).2 (pos i).1 (pos i).2 (mass i)
  let acc1 := if pin i then acc else fun k => if k = i then ((acc i).1 + fi.1, (acc i).2 + fi.2) else acc k
  let acc2 := if pin j then acc1 else fun k => if k = j then ((acc1 j).1 + fj.1, (acc1 j).2 + fj.2) else acc1 k
  acc2

/-- Exact pairwise accumulation (`compute_gravity`'s `else` branch): the
double loop is the fold of `gPairStep` over the pair list in source order,
starting from the zero-initialised `acc` array. -/
def pairwiseAcc (sq : ℚ → ℚ) (G eps2 : ℚ) (pos : ℕ → ℚ × ℚ) (mass : ℕ → ℚ)
    (pin : ℕ → Bool) (n : ℕ) : ℕ → ℚ × ℚ :=
  (pairIdx n).foldl (fun acc p => gPairStep sq G eps2 pos mass pin p acc) (fun _ => (0, 0))

/-- Snapshot for the Barnes–Hut path: every valid body (pinned ones included)
becomes a tree body carrying its position, mass, and index. -/
def spBodies (valid : List WBody) : List SPBody :=
  (List.range valid.length).map fun i =>
    ((valid.getD i default).px, (valid.getD i default).py, (valid.getD i default).mass, (i : ℤ))
    |> fun q => ⟨q.1, q.2.1, q.2.2.1, q.2.2.2⟩

/-- Write-back loop (`accPtrs[i]->value = acc[i]`): valid bodies receive their
accumulated acceleration in order; invalid bodies keep their old one. -/
def writeAcc (accOf : ℕ → ℚ × ℚ) : List WBody → ℕ → List WBody
  | [], _ => []
  | b :: rest, k =>
    if gravValid b then
      { b with ax := (accOf k).1, ay := (accOf k).2 } :: writeAcc accOf rest (k + 1)
    else b :: writeAcc accOf rest k

/-- Gravity pass (`Physics::compute_gravity`): collect valid bodies; if none,
return unchanged; choose the Barnes–Hut path when the valid count exceeds
`bh_threshold` (the source compares against `static_cast<size_t>(bh_threshold)`,
so a negative threshold wraps to a huge value and always selects the pairwise
path), else the exact pairwise path; pinned bodies are skipped as force
receivers in both paths but enter the pair terms and the tree as sources; the
computed accelerations are then written back.  `none` models the source
spinning forever in tree insertion (fuel exhaustion). -/
def compute_gravity (sq : ℚ → ℚ) (fuel : ℕ) (cfg : Config) (world : List WBody) :
    Option (List WBody) :=
  let valid := validBodies world
  let n := valid.length
  if n = 0 then some world
  else
    let eps2 := cfg.softening * cfg.softening
    let pos : ℕ → ℚ × ℚ := fun i => ((valid.getD i default).px, (valid.getD i default).py)
    let mass : ℕ → ℚ := fun i => (valid.getD i default).mass
    let pin : ℕ → Bool := fun i => (valid.getD i default).pinned
    if 0 ≤ cfg.bh_threshold ∧ cfg.bh_threshold.toNat < n then
      match build fuel (spBodies valid) with
      | none => none
      | some t =>
        let accOf : ℕ → ℚ × ℚ := fun i =>
          if pin i then (0, 0)
          else compute_force sq t ⟨(pos i).1, (pos i).2, mass i, (i : ℤ)⟩ cfg.bh_theta cfg.g eps2
        some (writeAcc accOf world 0)
    else
      some (writeAcc (pairwiseAcc sq cfg.g eps2 pos mass pin n) world 0)

/-! ## Integrator (Physics::integrate) -/

/-- Velocity cap: when `maxSpeed > 0` and the current speed exceeds it,
rescale the velocity vector to the cap magnitude (`vlen = sqrt(vx²+vy²)`). -/
def capSpeed (sq : ℚ → ℚ) (maxSpeed vx vy : ℚ) : ℚ × ℚ :=
  if 0 < maxSpeed then
    let vlen := sq (vx * vx + vy * vy)
    if maxSpeed < vlen then
      let s := maxSpeed / vlen
      (vx * s, vy * s)
    else (vx, vy)
  else (vx, vy)

/-- One Semi-Implicit Euler substep over all bodies with the required
components: pinned bodies are skipped; else `v += a·dtSub`, cap, then
`p += v·dtSub`. -/
def sieSubstep (sq : ℚ → ℚ) (maxSpeed dtSub : ℚ) (world : List WBody) : List WBody :=
  world.map fun b =>
    if b.pinned then b
    else
      let vx0 := b.vx + b.ax * dtSub
      let vy0 := b.vy + b.ay * dtSub
      let v := capSpeed sq maxSpeed vx0 vy0
      { b with vx := v.1, vy := v.2, px := b.px + v.1 * dtSub, py := b.py + v.2 * dtSub }

/-- Velocity Verlet position pass: pinned bodies are skipped; else
`p += v·dtSub + a·0.5·dtSub²` and the current acceleration is stored as
`PrevAcceleration`. -/
def vvPass1 (dtSub : ℚ) (world : List WBody) : List WBody :=
  world.map fun b =>
    if b.pinned then b
    else
      let half_dt2 := (1/2) * dtSub * dtSub
      { b with px := b.px + b.vx * dtSub + b.ax * half_dt2,
               py := b.py + b.vy * dtSub + b.ay * half_dt2,
               pax := b.ax, pay := b.ay }

/-- Velocity Verlet velocity pass: pinned bodies are skipped; else
`v += 0.5·(a₀ + a)·dtSub` followed by the speed cap. -/
def vvPass2 (sq : ℚ → ℚ) (maxSpeed dtSub : ℚ) (world : List WBody) : List WBody :=
  world.map fun b =>
    if b.pinned then b
    else
      let axm := (b.pax + b.ax) * (1/2)
      let aym := (b.pay + b.ay) * (1/2)
      let v := capSpeed sq maxSpeed (b.vx + axm * dtSub) (b.vy + aym * dtSub)
      { b with vx := v.1, vy := v.2 }

/-- Substep count of `Physics::integrate`:
`cap = max(1e-6, maxSubstep)`, `nSteps = ceil(dt/cap)` clamped into
`[1, max(1, maxSubstepsPerFrame)]`. -/
def substepCount (dt max_substep : ℚ) (max_substeps_per_frame : ℤ) : ℤ :=
  let cap := max (1/1000000) max_substep
  max 1 (min ⌈dt / cap⌉ (max 1 max_substeps_per_frame))

/-- Semi-Implicit Euler substep loop: gravity is refreshed between substeps
(`if (step + 1 < nSteps) compute_gravity`), not after the last. -/
def sieLoop (sq : ℚ → ℚ) (fuel : ℕ) (cfg : Config) (dtSub : ℚ) :
    ℕ → List WBody → Option (List WBody)
  | 0, w => some w
  | 1, w => some (sieSubstep sq cfg.max_speed dtSub w)
  | k + 2, w =>
    (compute_gravity sq fuel cfg (sieSubstep sq cfg.max_speed dtSub w)).bind
      (sieLoop sq fuel cfg dtSub (k + 1))

/-- Velocity Verlet substep loop: position pass, fresh gravity at the new
positions, then velocity pass, each substep. -/
def vvLoop (sq : ℚ → ℚ) (fuel : ℕ) (cfg : Config) (dtSub : ℚ) :
    ℕ → List WBody → Option (List WBody)
  | 0, w => some w
  | k + 1, w =>
    (compute_gravity sq fuel cfg (vvPass1 dtSub w)).bind fun w2 =>
      vvLoop sq fuel cfg dtSub k (vvPass2 sq cfg.max_speed dtSub w2)

/-- Integration step (`Physics::integrate`): split `dt` into `substepCount`
equal substeps of size `dt / nSteps` and run the selected scheme
(0 = Semi-Implicit Euler, else Velocity Verlet). -/
def integrate (sq : ℚ → ℚ) (fuel : ℕ) (cfg : Config) (dt : ℚ) (world : List WBody) :
    Option (List WBody) :=
  let nSteps := substepCount dt cfg.max_substep cfg.max_substeps_per_frame
  let dtSub := dt / (nSteps : ℚ)
  if cfg.integrator = 0 then sieLoop sq fuel cfg dtSub nSteps.toNat world
  else vvLoop sq fuel cfg dtSub nSteps.toNat world

/-! ## Simulation step (Physics::register_systems order: collisions, gravity,
integration on the effective timestep) -/

/-- Effective timestep `dtEff = baseDt × max(0, timeScale)`. -/
def dtEffective (cfg : Config) (baseDt : ℚ) : ℚ :=
  baseDt * max 0 cfg.time_scale

/-- One simulation step, in the order registered by
`Physics::register_systems`: collision resolution, then the gravity pass,
then integration on the effective timestep.  The diagnostics call between the
first two only reports and gates via the pause flag; it writes no body state
and is modelled separately. -/
def step (dr sq : ℚ → ℚ) (fuel : ℕ) (cfg : Config) (baseDt : ℚ) (world : List WBody) :
    Option (List WBody) :=
  (compute_gravity sq fuel cfg (resolve dr world)).bind
    (integrate sq fuel cfg (dtEffective cfg baseDt))

/-- Iterated simulation steps. -/
def stepIter (dr sq : ℚ → ℚ) (fuel : ℕ) (cfg : Config) (baseDt : ℚ) :
    ℕ → List WBody → Option (List WBody)
  | 0, w => some w
  | k + 1, w => (step dr sq fuel cfg baseDt w).bind (stepIter dr sq fuel cfg baseDt k)

/-- Ghost observer: the merge events the collision pass of a step would
record on the given world. -/
def stepEvents (dr : ℚ → ℚ) (world : List WBody) : List (ℕ × ℕ) :=
  (resolveE dr world).2

/-! ## Diagnostics (Physics::compute_diagnostics)

Diagnostics manipulates raw doubles and tests `std::isfinite` after each
accumulation, so its scalars are embedded as `FD := Option ℚ`: `some q` is a
finite double of exact value `q`, `none` is any non-finite double (NaN or ±∞).
Arithmetic propagates `none`; division by zero and the square root of a
negative produce `none`, as in IEEE.  Overflow of finite doubles to ∞ is the
one IEEE escape this model does not represent. -/

abbrev FD := Option ℚ

def fAdd : FD → FD → FD
  | some a, some b => some (a + b)
  | _, _ => none

def fMul : FD → FD → FD
  | some a, some b => some (a * b)
  | _, _ => none

def fSub : FD → FD → FD
  | some a, some b => some (a - b)
  | _, _ => none

def fNeg : FD → FD
  | some a => some (-a)
  | none => none

def fDiv : FD → FD → FD
  | some a, some b => if b = 0 then none else some (a / b)
  | _, _ => none

/-- IEEE `sqrt`: NaN on negative input, else finite with abstract value. -/
def fSqrt (sq : ℚ → ℚ) : FD → FD
  | some a => if a < 0 then none else some (sq a)
  | none => none

/-- Model of `std::isfinite`. -/
def fFinite : FD → Bool := Option.isSome

/-- IEEE `>` against a finite constant: false when the left side is NaN; the
source only applies it as `M > 0.0` after `M` passed the finiteness check. -/
def fGtZero : FD → Bool
  | some a => decide (0 < a)
  | none => false

/-- Snapshot entry of the diagnostics `w.each` over (Position, Velocity,
Mass). -/
structure DiagEntry where
  px : FD
  py : FD
  vx : FD
  vy : FD
  m : FD
deriving DecidableEq

/-- Accumulators of the first diagnostics loop. -/
structure Accum6 where
  ke : FD
  momx : FD
  momy : FD
  cx : FD
  cy : FD
  m : FD
deriving DecidableEq

def accum6Init : Accum6 := ⟨some 0, some 0, some 0, some 0, some 0, some 0⟩

/-- One iteration of the first loop:
`KE += 0.5·m·(vx²+vy²); Px += m·vx; Py += m·vy; Cx += m·px; Cy += m·py; M += m`. -/
def accumStep (e : DiagEntry) (a : Accum6) : Accum6 :=
  { ke := fAdd a.ke (fMul (fMul (some (1/2)) e.m) (fAdd (fMul e.vx e.vx) (fMul e.vy e.vy)))
    momx := fAdd a.momx (fMul e.m e.vx)
    momy := fAdd a.momy (fMul e.m e.vy)
    cx := fAdd a.cx (fMul e.m e.px)
    cy := fAdd a.cy (fMul e.m e.py)
    m := fAdd a.m e.m }

/-- Incremental check after each accumulation of the first loop: all six
accumulators finite. -/
def accumOk (a : Accum6) : Bool :=
  fFinite a.ke && fFinite a.momx && fFinite a.momy && fFinite a.cx && fFinite a.cy && fFinite a.m

/-- First diagnostics loop with its early exit: `none` models the
`return false` taken when an accumulator goes non-finite. -/
def diagLoop1 : List DiagEntry → Accum6 → Option Accum6
  | [], a => some a
  | e :: rest, a =>
    let a2 := accumStep e a
    if accumOk a2 then diagLoop1 rest a2 else none

/-- Ordered pairs `(i, j)`, `i < j`, of a list, in the double-loop order of
the source. -/
def pairsOf : List α → List (α × α)
  | [] => []
  | x :: xs => (xs.map fun y => (x, y)) ++ pairsOf xs

/-- Pairwise potential-energy term:
`r2 = dx² + dy² + ε²; PE += -G·mᵢ·mⱼ / sqrt(r2)`. -/
def peTerm (sq : ℚ → ℚ) (G eps2 : FD) (p : DiagEntry × DiagEntry) : FD :=
  let dx := fSub p.2.px p.1.px
  let dy := fSub p.2.py p.1.py
  let r2 := fAdd (fAdd (fMul dx dx) (fMul dy dy)) eps2
  let r := fSqrt sq r2
  fDiv (fMul (fMul (fNeg G) p.1.m) p.2.m) r

/-- Second diagnostics loop (potential energy) with its early exit. -/
def diagLoop2 (sq : ℚ → ℚ) (G eps2 : FD) : List (DiagEntry × DiagEntry) → FD → Option FD
  | [], pe => some pe
  | p :: rest, pe =>
    let pe2 := fAdd pe (peTerm sq G eps2 p)
    if fFinite pe2 then diagLoop2 sq G eps2 rest pe2 else none

/-- Diagnostics record (`Physics::Diagnostics`, fields default to zero and
`ok = true`). -/
structure Diagnostics where
  kinetic : FD
  potential : FD
  energy : FD
  momx : FD
  momy : FD
  comx : FD
  comy : FD
  totalMass : FD
  ok : Bool
deriving DecidableEq

def diagZero : Diagnostics :=
  ⟨some 0, some 0, some 0, some 0, some 0, some 0, some 0, some 0, true⟩

/-- Diagnostics computation (`Physics::compute_diagnostics`): the snapshot
`data`, the parameters `G` and `ε²`, and the configuration's pause flag go in;
the filled record and the new pause flag come out.  An empty snapshot returns
`ok = true` immediately.  Each early exit of the source sets `cfg->paused =
true`, zeroes the output (the record was freshly value-initialised) with
`ok = false`, and returns; the success path re-checks every derived field and
also sets the pause flag when that final check fails. -/
def compute_diagnostics (sq : ℚ → ℚ) (data : List DiagEntry) (G eps2 : FD)
    (paused : Bool) : Diagnostics × Bool :=
  if data.length = 0 then (diagZero, paused)
  else
    match diagLoop1 data accum6Init with
    | none => ({ diagZero with ok := false }, true)
    | some a =>
      match diagLoop2 sq G eps2 (pairsOf data) (some 0) with
      | none => ({ diagZero with ok := false }, true)
      | some pe =>
        let energy := fAdd a.ke pe
        let com : FD × FD :=
          if fGtZero a.m then (fDiv a.cx a.m, fDiv a.cy a.m) else (some 0, some 0)
        let ok := fFinite a.ke && fFinite pe && fFinite energy && fFinite a.momx &&
          fFinite a.momy && fFinite a.m && fFinite com.1 && fFinite com.2
        (⟨a.ke, pe, energy, a.momx, a.momy, com.1, com.2, a.m, ok⟩, paused || !ok)

/-- Spec-side view for C6: the value of the first loop's accumulators after
the first `k` entries, computed without any early exit. -/
def accumAt (data : List DiagEntry) (k : ℕ) : Accum6 :=
  (data.take k).foldl (fun a e => accumStep e a) accum6Init

/-- Spec-side view for C6: the potential-energy accumulator after the first
`k` pairs, computed without any early exit. -/
def peAt (sq : ℚ → ℚ) (G eps2 : FD) (data : List DiagEntry) (k : ℕ) : FD :=
  ((pairsOf data).take k).foldl (fun pe p => fAdd pe (peTerm sq G eps2 p)) (some 0)

/-- Spec-side predicate for C6: some accumulator (kinetic energy, momentum
component, center-of-mass sum, total mass, or pairwise potential energy) is
non-finite at some point during summation. -/
def someAccumNonfinite (sq : ℚ → ℚ) (G eps2 : FD) (data : List DiagEntry) : Prop :=
  (∃ k ≤ data.length, accumOk (accumAt data k) = false) ∨
  (∃ k ≤ (pairsOf data).length, fFinite (peAt sq G eps2 data k) = false)

/-! ## Spec-side definitions used to settle refinement claims -/

/-- Modelled from the spec for C5: the claimed substep count
`nSteps = clamp(ceil(dtEff / maxSubstep), 1, maxSubstepsPerFrame)`, written
exactly as the spec's formula, with the convention that the division by a zero
`maxSubstep` (a case the claim explicitly includes) is the total `ℚ` division. -/
def substepCountClaim (dt max_substep : ℚ) (max_substeps_per_frame : ℤ) : ℤ :=
  min (max ⌈dt / max_substep⌉ 1) max_substeps_per_frame

/-- Lift of a predicate to `Option`: trivially true on `none` (the fuel model
of a source-side infinite loop), the predicate on `some`. -/
def optAll (P : α → Prop) : Option α → Prop
  | none => True
  | some a => P a

instance optAllDecidable (P : α → Prop) [DecidablePred P] :
    (o : Option α) → Decidable (optAll P o)
  | none => Decidable.isTrue trivial
  | some a => if h : P a then Decidable.isTrue h else Decidable.isFalse h

/-- Body multiset of a subtree (positions of resident bodies). -/
def bodiesIn : QNode → List SPBody
  | .leaf _ _ _ _ _ _ none => []
  | .leaf _ _ _ _ _ _ (some b) => [b]
  | .branch _ _ _ _ _ _ nw ne sw se => bodiesIn nw ++ bodiesIn ne ++ bodiesIn sw ++ bodiesIn se

/-- Total mass of a list of tree bodies. -/
def totalMass (l : List SPBody) : ℚ := (l.map SPBody.mass).sum

/-- Spec-side invariant for C9 at one node: a leaf's mass and center of mass
equal its resident body's mass and position, or zero if empty; an internal
node's mass is the sum over its non-empty children and its center of mass is
their mass-weighted average. -/
def nodeAgg : QNode → Prop
  | .leaf _ _ _ m cox coy none => m = 0 ∧ cox = 0 ∧ coy = 0
  | .leaf _ _ _ m cox coy (some b) => m = b.mass ∧ cox = b.posx ∧ coy = b.posy
  | .branch _ _ _ m cox coy nw ne sw se =>
    let cs := [nw, ne, sw, se].filter fun c => bodiesIn c ≠ []
    m = (cs.map QNode.mass).sum ∧
    cox * m = (cs.map fun c => c.comx * c.mass).sum ∧
    coy * m = (cs.map fun c => c.comy * c.mass).sum

/-- Spec-side invariant for C9 over a whole tree. -/
def aggInv : QNode → Prop
  | .leaf cx cy hs m cox coy body => nodeAgg (.leaf cx cy hs m cox coy body)
  | .branch cx cy hs m cox coy nw ne sw se =>
    nodeAgg (.branch cx cy hs m cox coy nw ne sw se) ∧
    aggInv nw ∧ aggInv ne ∧ aggInv sw ∧ aggInv se

/-- Index-threaded acceleration write on a body list without the validity
filter; `writeAcc` agrees with it on the valid sublist. -/
def setAccs (accOf : ℕ → ℚ × ℚ) : List WBody → ℕ → List WBody
  | [], _ => []
  | b :: rest, k => { b with ax := (accOf k).1, ay := (accOf k).2 } :: setAccs accOf rest (k + 1)

/-- Net contribution of processing the pair `p` to the accumulator of index
`k` in one `gPairStep` (zero unless `k` is one of the pair's non-pinned
members). -/
def gContrib (sq : ℚ → ℚ) (G eps2 : ℚ) (pos : ℕ → ℚ × ℚ) (mass : ℕ → ℚ)
    (pin : ℕ → Bool) (k : ℕ) (p : ℕ × ℕ) : ℚ × ℚ :=
  (if k = p.1 ∧ pin p.1 = false then
    pairAccel sq G eps2 (pos p.1).1 (pos p.1).2 (pos p.2).1 (pos p.2).2 (mass p.2) else 0) +
  (if k = p.2 ∧ pin p.2 = false then
    pairAccel sq G eps2 (pos p.2).1 (pos p.2).2 (pos p.1).1 (pos p.1).2 (mass p.1) else 0)

/-- Spec-side property for C8 about the gravity pass's result `w2`: valid
pinned bodies accumulate no acceleration at all; on the exact pairwise path a
valid non-pinned body's acceleration is the sum of the softened pair terms
over every other valid body — pinned sources included; on the Barnes–Hut path
the tree is built over every valid body (`spBodies` maps pinned ones too) and
each valid non-pinned body receives exactly the tree force. -/
def c8Prop (sq : ℚ → ℚ) (fuel : ℕ) (cfg : Config) (world : List WBody)
    (w2 : List WBody) : Prop :=
  let valid := validBodies world
  let n := valid.length
  let eps2 := cfg.softening * cfg.softening
  let pos : ℕ → ℚ × ℚ := fun i => ((valid.getD i default).px, (valid.getD i default).py)
  let mass : ℕ → ℚ := fun i => (valid.getD i default).mass
  let accAt : ℕ → ℚ × ℚ := fun i =>
    (((validBodies w2).getD i default).ax, ((validBodies w2).getD i default).ay)
  (∀ i < n, (valid.getD i default).pinned = true → accAt i = (0, 0)) ∧
  (¬(0 ≤ cfg.bh_threshold ∧ cfg.bh_threshold.toNat < n) →
    ∀ i < n, (valid.getD i default).pinned = false →
      accAt i = (((List.range n).filter (fun j => j ≠ i)).map fun j =>
        pairAccel sq cfg.g eps2 (pos i).1 (pos i).2 (pos j).1 (pos j).2 (mass j)).sum) ∧
  ((0 ≤ cfg.bh_threshold ∧ cfg.bh_threshold.toNat < n) →
    ∃ t, build fuel (spBodies valid) = some t ∧
      ∀ i < n, (valid.getD i default).pinned = false →
        accAt i = compute_force sq t ⟨(pos i).1, (pos i).2, mass i, (i : ℤ)⟩ cfg.bh_theta cfg.g eps2)

/-- Pinned-body view for C1: every body with handle `e` is pinned and sits at
the recorded position with the recorded velocity. -/
def coreKept (e : ℕ) (px0 py0 vx0 vy0 : ℚ) (w : List WBody) : Prop :=
  ∀ b ∈ w, b.eid = e → b.pinned = true ∧ b.px = px0 ∧ b.py = py0 ∧ b.vx = vx0 ∧ b.vy = vy0

/-- Pinned-body invariant for C1: the body with handle `e` exists, is pinned,
and carries exactly the recorded position and velocity. -/
def pinnedKept (e : ℕ) (px0 py0 vx0 vy0 : ℚ) (w : List WBody) : Prop :=
  (∃ b ∈ w, b.eid = e) ∧ coreKept e px0 py0 vx0 vy0 w

/-- Bodies of the world carrying the handle `e`, in order. -/
def eidView (e : ℕ) (w : List WBody) : List WBody :=
  w.filter fun b => b.eid = e

/-- Handle, position, velocity, and pinned flag of a body — the components
the gravity pass never writes. -/
def pvView (b : WBody) : ℕ × ℚ × ℚ × ℚ × ℚ × Bool :=
  (b.eid, b.px, b.py, b.vx, b.vy, b.pinned)

/-- No merge event of a collision pass on this world involves the handle `e`. -/
def eventsAvoid (dr : ℚ → ℚ) (e : ℕ) (w : List WBody) : Prop :=
  ∀ ev ∈ stepEvents dr w, ev.1 ≠ e ∧ ev.2 ≠ e

instance (dr : ℚ → ℚ) (e : ℕ) (w : List WBody) : Decidable (eventsAvoid dr e w) := by
  unfold eventsAvoid
  infer_instance

instance (e : ℕ) (px0 py0 vx0 vy0 : ℚ) (w : List WBody) :
    Decidable (pinnedKept e px0 py0 vx0 vy0 w) := by
  unfold pinnedKept coreKept
  infer_instance

/-! ## C7: quadrant tie-breaking -/

/-- C7 counterexample: a point whose coordinates both equal the node's center
is placed in quadrant 0 (NW), not quadrant 3 (SE) as the claim states: the
strict `>` comparisons of `get_quadrant` send equal coordinates west/north. -/
theorem c7_tie_counterexample : get_quadrant 0 0 0 0 = 0 ∧ get_quadrant 0 0 0 0 ≠ 3 := by
  constructor <;> decide

/-- C7 amended: during quadtree insertion a coordinate tie goes to the
north/west quadrant: a point with `x` equal to the node's center `x` lands in
a west quadrant (NW = 0 or SW = 2), and a point with `y` equal to the center
`y` lands in a north quadrant (NW = 0 or NE = 1), for every node center and
every point. -/
theorem c7_tie_goes_northwest (cx cy px py : ℚ) :
    (get_quadrant cx cy cx py = 0 ∨ get_quadrant cx cy cx py = 2) ∧
    (get_quadrant cx cy px cy = 0 ∨ get_quadrant cx cy px cy = 1) := by
  unfold get_quadrant
  constructor
  · rw [if_neg (lt_irrefl cx)]
    by_cases h : cy < py
    · rw [if_pos h]; right; rfl
    · rw [if_neg h]; left; rfl
  · by_cases h : cx < px
    · rw [if_pos h, if_neg (lt_irrefl cy)]; right; rfl
    · rw [if_neg h, if_neg (lt_irrefl cy)]; left; rfl

/-! ## C5: substep splitting -/

/-- C5 counterexample: with `dtEff = 1`, `maxSubstep = 0` (a case the claim
explicitly covers) and `maxSubstepsPerFrame = 8`, the integrator's substep
count is 8 — the source floors the cap at `1e-6` — while the claimed formula
`clamp(ceil(dtEff / maxSubstep), 1, maxSubstepsPerFrame)` yields 1. -/
theorem c5_substeps_counterexample :
    substepCount 1 0 8 = 8 ∧ substepCountClaim 1 0 8 = 1 ∧
    substepCount 1 0 8 ≠ substepCountClaim 1 0 8 := by
  refine ⟨by with_unfolding_all decide, by with_unfolding_all decide,
    by with_unfolding_all decide⟩

/-- C5 amended: the integrator advances on
`nSteps = clamp(ceil(dtEff / max(1e-6, maxSubstep)), 1, max(1, maxSubstepsPerFrame))`
equal substeps of size `dtEff / nSteps`: the first conjunct identifies the
source's `max/min` computation with that clamp for every input, and the second
shows `integrate` running exactly that many substeps of exactly that size
under both schemes. -/
theorem c5_substeps_amended (dt ms : ℚ) (mf : ℤ) (sq : ℚ → ℚ) (fuel : ℕ)
    (cfg : Config) (w : List WBody) :
    substepCount dt ms mf = min (max ⌈dt / max (1/1000000) ms⌉ 1) (max 1 mf) ∧
    integrate sq fuel cfg dt w =
      (if cfg.integrator = 0 then
        sieLoop sq fuel cfg
          (dt / ((substepCount dt cfg.max_substep cfg.max_substeps_per_frame : ℤ) : ℚ))
          (substepCount dt cfg.max_substep cfg.max_substeps_per_frame).toNat w
      else
        vvLoop sq fuel cfg
          (dt / ((substepCount dt cfg.max_substep cfg.max_substeps_per_frame : ℤ) : ℚ))
          (substepCount dt cfg.max_substep cfg.max_substeps_per_frame).toNat w) := by
  constructor
  · show max 1 (min ⌈dt / max (1/1000000) ms⌉ (max 1 mf)) =
      min (max ⌈dt / max (1/1000000) ms⌉ 1) (max 1 mf)
    omega
  · rfl

/-! ## C3: diagnostics and the pause flag -/

/-- C3 counterexample: on a single body whose mass is non-finite, with the
pause flag initially false, `compute_diagnostics` returns `ok = false` and
itself sets the configuration's pause flag to true — the source writes
`cfg->paused = true` on every non-finite detection. -/
theorem c3_diagnostics_pause_counterexample :
    (compute_diagnostics (fun _ => 0) [⟨some 0, some 0, some 0, some 0, none⟩]
        (some 1) (some 0) false).2 = true ∧
    (compute_diagnostics (fun _ => 0) [⟨some 0, some 0, some 0, some 0, none⟩]
        (some 1) (some 0) false).1.ok = false := by
  refine ⟨by decide, by decide⟩

/-- C3 amended: `compute_diagnostics` reads only its body snapshot and writes
no body state, reporting divergence through the returned `ok` flag — but it
does mutate configuration: it sets the pause flag itself, leaving it raised
exactly when the pass was already paused or the diagnostics report not-ok. -/
theorem c3_diagnostics_sets_paused_iff_not_ok (sq : ℚ → ℚ) (data : List DiagEntry)
    (G eps2 : FD) (paused : Bool) :
    (compute_diagnostics sq data G eps2 paused).2 =
      (paused || !(compute_diagnostics sq data G eps2 paused).1.ok) := by
  unfold compute_diagnostics
  split
  · simp [diagZero]
  · split
    · simp [diagZero]
    · split
      · simp [diagZero]
      · simp

/-! ## C2: merge survivor selection -/

/-- C2 failing input: body 1 (mass 1, not pinned) overlaps body 2 (mass 5,
pinned), both at the origin with radius 1.  The source's survivor test
`(A.m >= B.m) || B.pinned` makes the lighter non-pinned body 1 the survivor
whenever `B` is the pinned one, so the pinned, heavier body 2 is destroyed —
against both the claim (ties and pinned cases favor the pinned body, pinned
bodies never disappear) and the code's own comment that inelastic collisions
"merge into the pinned". -/
theorem c2_merge_destroys_pinned_eval :
    resolve (fun _ => 1)
        [⟨1, 0, 0, 0, 0, 0, 0, 0, 0, 1, false, some 1⟩,
         ⟨2, 0, 0, 0, 0, 0, 0, 0, 0, 5, true, some 1⟩] =
      [⟨1, 0, 0, 0, 0, 0, 0, 0, 0, 6, true, some 1⟩] := by
  with_unfolding_all decide

/-! ## Two-body collision characterization (shared by the merge claims) -/

/-- Characterization of the collision pass on a two-body world whose bodies
overlap and are not both pinned: the merge branch runs once, the survivor is
chosen by `(A.m >= B.m) || B.pinned`, and the world retains exactly the
survivor entity with the merged components. -/
theorem resolve_two_merge (dr : ℚ → ℚ) (A B : WBody) (hmA : 0 < A.mass) (hmB : 0 < B.mass)
    (hne : A.eid ≠ B.eid)
    (hov : ¬ ((radius_of dr A + radius_of dr B) * (radius_of dr A + radius_of dr B) <
      (B.px - A.px) * (B.px - A.px) + (B.py - A.py) * (B.py - A.py)))
    (hpin : ¬(A.pinned = true ∧ B.pinned = true)) :
    resolve dr [A, B] =
      [if (decide (B.mass ≤ A.mass) || B.pinned) = true then
        mergedBody dr (refOf dr A) (refOf dr B) A
      else mergedBody dr (refOf dr B) (refOf dr A) B] := by
  have hsnap : collisionSnapshot dr [A, B] = [refOf dr A, refOf dr B] := by
    simp [collisionSnapshot, hmA, hmB]
  have hskel : ∀ st1 : PassState,
      (outerLoop dr 2 0 2 (if st1.alive 1 = true then innerLoop dr 1 0 2 st1 else st1)).world
        = st1.world := by
    intro st1
    rw [innerLoop, ite_self]
    rfl
  have hres : resolve dr [A, B] =
      (pairStep dr 0 1 ⟨fun k => [refOf dr A, refOf dr B].getD k default,
        fun _ => true, [A, B], []⟩).world := by
    have h0 : resolve dr [A, B] =
        (outerLoop dr 2 0 2
          (if (pairStep dr 0 1 ⟨fun k => [refOf dr A, refOf dr B].getD k default,
                fun _ => true, [A, B], []⟩).alive 1 = true then
            innerLoop dr 1 0 2 (pairStep dr 0 1 ⟨fun k => [refOf dr A, refOf dr B].getD k default,
                fun _ => true, [A, B], []⟩)
          else pairStep dr 0 1 ⟨fun k => [refOf dr A, refOf dr B].getD k default,
                fun _ => true, [A, B], []⟩)).world := by
      unfold resolve resolveE
      rw [hsnap]
      rfl
    rw [h0, hskel]
  rw [hres]
  have hne2 : B.eid ≠ A.eid := fun h => hne h.symm
  have hba : (B.pinned && A.pinned) = false := by
    cases hA : A.pinned <;> cases hB : B.pinned <;> simp_all
  have hab : (A.pinned && B.pinned) = false := by
    cases hA : A.pinned <;> cases hB : B.pinned <;> simp_all
  unfold pairStep
  dsimp only [List.getD, List.get?, refOf, Option.getD_some]
  rw [if_neg (by simp : ¬ (true = false))]
  rw [if_neg hov]
  cases haS : (decide (B.mass ≤ A.mass) || B.pinned) with
  | true =>
    simp only [if_pos rfl, if_true]
    rw [hba]
    simp only [if_neg (by simp : ¬ (false = true))]
    simp only [updW, delW, List.map, List.filter]
    simp [mergedBody, refOf, hne, hne2]
  | false =>
    simp only [if_neg (by simp : ¬ (false = true))]
    rw [hab]
    simp only [if_neg (by simp : ¬ (false = true))]
    simp only [updW, delW, List.map, List.filter]
    simp [mergedBody, refOf, hne, hne2]

/-! ## C4: merge mass/momentum conservation -/

/-- C4: an inelastic merge of two colliding non-pinned bodies (positive
masses, distinct handles, separation within the radius sum) leaves one
survivor whose mass is `m1 + m2`, whose velocity is
`(m1·v1 + m2·v2)/(m1 + m2)`, and whose position is the mass-weighted average
of the two positions; the other body's handle no longer denotes any body. -/
theorem c4_merge_mass_momentum (dr : ℚ → ℚ) (A B : WBody) (hmA : 0 < A.mass)
    (hmB : 0 < B.mass) (hne : A.eid ≠ B.eid)
    (hov : ¬ ((radius_of dr A + radius_of dr B) * (radius_of dr A + radius_of dr B) <
      (B.px - A.px) * (B.px - A.px) + (B.py - A.py) * (B.py - A.py)))
    (hpA : A.pinned = false) (hpB : B.pinned = false) :
    ∃ s, resolve dr [A, B] = [s] ∧
      s.mass = A.mass + B.mass ∧
      s.vx = (A.mass * A.vx + B.mass * B.vx) / (A.mass + B.mass) ∧
      s.vy = (A.mass * A.vy + B.mass * B.vy) / (A.mass + B.mass) ∧
      s.px = (A.mass * A.px + B.mass * B.px) / (A.mass + B.mass) ∧
      s.py = (A.mass * A.py + B.mass * B.py) / (A.mass + B.mass) ∧
      s.eid = (if B.mass ≤ A.mass then A.eid else B.eid) ∧
      ∀ b ∈ resolve dr [A, B], b.eid ≠ (if B.mass ≤ A.mass then B.eid else A.eid) := by
  have h := resolve_two_merge dr A B hmA hmB hne hov (by simp [hpA, hpB])
  have hne2 : B.eid ≠ A.eid := fun hh => hne hh.symm
  by_cases hm : B.mass ≤ A.mass
  · have haS : (decide (B.mass ≤ A.mass) || B.pinned) = true := by simp [hm]
    rw [haS, if_pos rfl] at h
    refine ⟨_, h, ?_, ?_, ?_, ?_, ?_, ?_, ?_⟩
    · simp [mergedBody, refOf]
    · simp [mergedBody, refOf]
    · simp [mergedBody, refOf]
    · simp [mergedBody, refOf]
    · simp [mergedBody, refOf]
    · simp [mergedBody, refOf, hm]
    · simp [h, mergedBody, refOf, hm, hne]
  · have haS : (decide (B.mass ≤ A.mass) || B.pinned) = false := by simp [hm, hpB]
    rw [haS, if_neg (by simp)] at h
    refine ⟨_, h, ?_, ?_, ?_, ?_, ?_, ?_, ?_⟩
    · simp only [mergedBody, refOf]; ring
    · simp only [mergedBody, refOf]; ring_nf
    · simp only [mergedBody, refOf]; ring_nf
    · simp only [mergedBody, refOf]; ring_nf
    · simp only [mergedBody, refOf]; ring_nf
    · simp [mergedBody, refOf, hm]
    · simp [h, mergedBody, refOf, hm, hne2]

/-- C4 witness: a concrete overlapping non-pinned pair (masses 1 and 3 at
unit distance with radius 1 each) on which the merge theorem's hypotheses
hold. -/
theorem c4_merge_mass_momentum_witness :
    ∃ s, resolve (fun _ => 1)
        [⟨1, 0, 0, 1, 0, 0, 0, 0, 0, 1, false, some 1⟩,
         ⟨2, 1, 0, 0, 0, 0, 0, 0, 0, 3, false, some 1⟩] = [s] ∧
      s.mass = 1 + 3 ∧
      s.vx = (1 * 1 + 3 * 0) / (1 + 3) ∧
      s.vy = (1 * 0 + 3 * 0) / (1 + 3) ∧
      s.px = (1 * 0 + 3 * 1) / (1 + 3) ∧
      s.py = (1 * 0 + 3 * 0) / (1 + 3) ∧
      s.eid = (if (3:ℚ) ≤ 1 then 1 else 2) ∧
      ∀ b ∈ resolve (fun _ => 1)
        [⟨1, 0, 0, 1, 0, 0, 0, 0, 0, 1, false, some 1⟩,
         ⟨2, 1, 0, 0, 0, 0, 0, 0, 0, 3, false, some 1⟩],
        b.eid ≠ (if (3:ℚ) ≤ 1 then 2 else 1) :=
  c4_merge_mass_momentum (fun _ => 1)
    ⟨1, 0, 0, 1, 0, 0, 0, 0, 0, 1, false, some 1⟩
    ⟨2, 1, 0, 0, 0, 0, 0, 0, 0, 3, false, some 1⟩
    (by decide) (by decide) (by decide) (by with_unfolding_all decide) rfl rfl

/-! ## C10: merge pins the survivor -/

/-- C10: whenever an inelastic merge of two overlapping bodies involves at
least one pinned body (and not both pinned), the surviving body's pinned flag
is the logical OR of the two flags, so the survivor ends up pinned. -/
theorem c10_merge_survivor_pinned (dr : ℚ → ℚ) (A B : WBody) (hmA : 0 < A.mass)
    (hmB : 0 < B.mass) (hne : A.eid ≠ B.eid)
    (hov : ¬ ((radius_of dr A + radius_of dr B) * (radius_of dr A + radius_of dr B) <
      (B.px - A.px) * (B.px - A.px) + (B.py - A.py) * (B.py - A.py)))
    (hone : (A.pinned || B.pinned) = true)
    (hnboth : ¬(A.pinned = true ∧ B.pinned = true)) :
    ∃ s, resolve dr [A, B] = [s] ∧ s.pinned = (A.pinned || B.pinned) ∧ s.pinned = true := by
  have h := resolve_two_merge dr A B hmA hmB hne hov hnboth
  cases haS : (decide (B.mass ≤ A.mass) || B.pinned) with
  | true =>
    rw [haS, if_pos rfl] at h
    exact ⟨_, h, by simp [mergedBody, refOf], by simp [mergedBody, refOf, hone]⟩
  | false =>
    rw [haS] at h
    rw [if_neg (by simp)] at h
    exact ⟨_, h, by simp [mergedBody, refOf, Bool.or_comm], by
      simp [mergedBody, refOf, Bool.or_comm, hone]⟩

/-- C10 witness: a pinned light body overlapping a non-pinned heavy body; the
survivor carries the OR of the pinned flags. -/
theorem c10_merge_survivor_pinned_witness :
    ∃ s, resolve (fun _ => 1)
        [⟨1, 0, 0, 0, 0, 0, 0, 0, 0, 1, true, some 1⟩,
         ⟨2, 1, 0, 0, 0, 0, 0, 0, 0, 3, false, some 1⟩] = [s] ∧
      s.pinned = (true || false) ∧ s.pinned = true :=
  c10_merge_survivor_pinned (fun _ => 1)
    ⟨1, 0, 0, 0, 0, 0, 0, 0, 0, 1, true, some 1⟩
    ⟨2, 1, 0, 0, 0, 0, 0, 0, 0, 3, false, some 1⟩
    (by decide) (by decide) (by decide) (by with_unfolding_all decide) rfl (by decide)

/-! ## C6: incremental non-finiteness detection in diagnostics -/

theorem fAdd_isSome (a b : FD) : (fAdd a b).isSome = (a.isSome && b.isSome) := by
  cases a <;> cases b <;> rfl

theorem accumOk_step_false {a : Accum6} (e : DiagEntry) (h : accumOk a = false) :
    accumOk (accumStep e a) = false := by
  unfold accumOk accumStep at *
  simp only [fFinite, fAdd_isSome] at *
  rcases Bool.and_eq_false_iff.mp h with h5 | h6
  · rcases Bool.and_eq_false_iff.mp h5 with h4 | hcy
    · rcases Bool.and_eq_false_iff.mp h4 with h3 | hcx
      · rcases Bool.and_eq_false_iff.mp h3 with h2 | hpy
        · rcases Bool.and_eq_false_iff.mp h2 with h1 | hpx
          · simp [h1]
          · simp [hpx]
        · simp [hpy]
      · simp [hcx]
    · simp [hcy]
  · simp [h6]

theorem diagLoop1_none_iff (l : List DiagEntry) (a : Accum6) (ha : accumOk a = true) :
    diagLoop1 l a = none ↔
      ∃ k ≤ l.length, accumOk ((l.take k).foldl (fun a e => accumStep e a) a) = false := by
  induction l generalizing a with
  | nil =>
    simp only [diagLoop1, List.length_nil, Nat.le_zero]
    constructor
    · intro h; exact absurd h (by simp)
    · rintro ⟨k, rfl, hbad⟩
      simp only [List.take_nil, List.foldl_nil] at hbad
      rw [ha] at hbad; exact absurd hbad (by simp)
  | cons e rest ih =>
    by_cases hOk : accumOk (accumStep e a) = true
    · have hl : diagLoop1 (e :: rest) a = diagLoop1 rest (accumStep e a) := by
        simp [diagLoop1, hOk]
      rw [hl, ih (accumStep e a) hOk]
      constructor
      · rintro ⟨k, hk, hbad⟩
        exact ⟨k + 1, by simpa using hk, by simpa [List.take_succ_cons] using hbad⟩
      · rintro ⟨k, hk, hbad⟩
        match k with
        | 0 =>
          simp only [List.take_zero, List.foldl_nil] at hbad
          rw [ha] at hbad; exact absurd hbad (by simp)
        | k + 1 =>
          exact ⟨k, by simpa using hk, by simpa [List.take_succ_cons] using hbad⟩
    · have hbad : accumOk (accumStep e a) = false := by
        cases h : accumOk (accumStep e a)
        · rfl
        · exact absurd h hOk
      have hl : diagLoop1 (e :: rest) a = none := by
        simp [diagLoop1, hbad]
      rw [hl]
      constructor
      · intro _
        exact ⟨1, by simp, by simpa [List.take_succ_cons] using hbad⟩
      · intro _; rfl

theorem diagLoop1_some {l : List DiagEntry} {a a2 : Accum6}
    (h : diagLoop1 l a = some a2) :
    a2 = l.foldl (fun a e => accumStep e a) a ∧ (l = [] ∨ accumOk a2 = true) := by
  induction l generalizing a with
  | nil =>
    simp only [diagLoop1, Option.some_inj] at h
    exact ⟨h.symm, Or.inl rfl⟩
  | cons e rest ih =>
    by_cases hOk : accumOk (accumStep e a) = true
    · rw [show diagLoop1 (e :: rest) a = diagLoop1 rest (accumStep e a) by
        simp [diagLoop1, hOk]] at h
      rcases ih h with ⟨heq, hor⟩
      refine ⟨by simpa using heq, Or.inr ?_⟩
      rcases hor with hnil | hok2
      · subst hnil; simpa [heq] using hOk
      · exact hok2
    · rw [show diagLoop1 (e :: rest) a = none by
        simp [diagLoop1]
        intro hc
        exact absurd hc hOk] at h
      exact absurd h (by simp)

theorem diagLoop2_none_iff (sq : ℚ → ℚ) (G eps2 : FD) (l : List (DiagEntry × DiagEntry))
    (pe : FD) (hpe : fFinite pe = true) :
    diagLoop2 sq G eps2 l pe = none ↔
      ∃ k ≤ l.length, fFinite ((l.take k).foldl (fun pe p => fAdd pe (peTerm sq G eps2 p)) pe) = false := by
  induction l generalizing pe with
  | nil =>
    simp only [diagLoop2, List.length_nil, Nat.le_zero]
    constructor
    · intro h; exact absurd h (by simp)
    · rintro ⟨k, rfl, hbad⟩
      simp only [List.take_nil, List.foldl_nil] at hbad
      rw [hpe] at hbad; exact absurd hbad (by simp)
  | cons p rest ih =>
    by_cases hOk : fFinite (fAdd pe (peTerm sq G eps2 p)) = true
    · have hl : diagLoop2 sq G eps2 (p :: rest) pe =
          diagLoop2 sq G eps2 rest (fAdd pe (peTerm sq G eps2 p)) := by
        simp [diagLoop2, hOk]
      rw [hl, ih _ hOk]
      constructor
      · rintro ⟨k, hk, hbad⟩
        exact ⟨k + 1, by simpa using hk, by simpa [List.take_succ_cons] using hbad⟩
      · rintro ⟨k, hk, hbad⟩
        match k with
        | 0 =>
          simp only [List.take_zero, List.foldl_nil] at hbad
          rw [hpe] at hbad; exact absurd hbad (by simp)
        | k + 1 =>
          exact ⟨k, by simpa using hk, by simpa [List.take_succ_cons] using hbad⟩
    · have hbad : fFinite (fAdd pe (peTerm sq G eps2 p)) = false := by
        cases h : fFinite (fAdd pe (peTerm sq G eps2 p))
        · rfl
        · exact absurd h hOk
      have hl : diagLoop2 sq G eps2 (p :: rest) pe = none := by
        simp [diagLoop2, hbad]
      rw [hl]
      constructor
      · intro _
        exact ⟨1, by simp, by simpa [List.take_succ_cons] using hbad⟩
      · intro _; rfl

theorem diagLoop2_some {sq : ℚ → ℚ} {G eps2 : FD} {l : List (DiagEntry × DiagEntry)}
    {pe pe2 : FD} (hpe : fFinite pe = true) (h : diagLoop2 sq G eps2 l pe = some pe2) :
    fFinite pe2 = true := by
  induction l generalizing pe with
  | nil =>
    simp only [diagLoop2, Option.some_inj] at h
    rw [← h]; exact hpe
  | cons p rest ih =>
    by_cases hOk : fFinite (fAdd pe (peTerm sq G eps2 p)) = true
    · rw [show diagLoop2 sq G eps2 (p :: rest) pe =
        diagLoop2 sq G eps2 rest (fAdd pe (peTerm sq G eps2 p)) by simp [diagLoop2, hOk]] at h
      exact ih hOk h
    · rw [show diagLoop2 sq G eps2 (p :: rest) pe = none by
        simp [diagLoop2]
        intro hc
        exact absurd hc hOk] at h
      exact absurd h (by simp)

/-- C6: `compute_diagnostics` reports `ok = false` exactly when one of its
accumulators — kinetic energy, a momentum component, a center-of-mass sum,
total mass, or the pairwise potential energy — is non-finite at some point
during summation (checked incrementally after every accumulation; the final
re-check of the success path can never fire on its own in the exact model). -/
theorem c6_diagnostics_ok_iff_accum_finite (sq : ℚ → ℚ) (data : List DiagEntry)
    (G eps2 : FD) (paused : Bool) :
    (compute_diagnostics sq data G eps2 paused).1.ok = false ↔
      someAccumNonfinite sq G eps2 data := by
  have hinit : accumOk accum6Init = true := by decide
  unfold compute_diagnostics
  by_cases hlen : data.length = 0
  · rw [if_pos hlen]
    have hdata : data = [] := List.eq_nil_of_length_eq_zero hlen
    subst hdata
    simp only [diagZero, someAccumNonfinite]
    constructor
    · intro h; exact absurd h (by simp)
    · rintro (⟨k, hk, hbad⟩ | ⟨k, hk, hbad⟩)
      · obtain rfl : k = 0 := Nat.le_zero.mp hk
        simp [accumAt] at hbad
        exact absurd hbad (by decide)
      · simp only [pairsOf, List.length_nil, Nat.le_zero] at hk
        subst hk
        simp [peAt, pairsOf] at hbad
        exact absurd hbad (by decide)
  · rw [if_neg hlen]
    cases h1 : diagLoop1 data accum6Init with
    | none =>
      simp only
      constructor
      · intro _
        exact Or.inl ((diagLoop1_none_iff data accum6Init hinit).mp h1)
      · intro _; trivial
    | some a =>
      cases h2 : diagLoop2 sq G eps2 (pairsOf data) (some 0) with
      | none =>
        simp only
        constructor
        · intro _
          exact Or.inr ((diagLoop2_none_iff sq G eps2 (pairsOf data) (some 0) rfl).mp h2)
        · intro _; trivial
      | some pe =>
        rcases diagLoop1_some h1 with ⟨ha, hor⟩
        have hdata : data ≠ [] := fun hc => hlen (by simp [hc])
        have haok : accumOk a = true := by
          rcases hor with hnil | hok
          · exact absurd hnil hdata
          · exact hok
        have hpeok : fFinite pe = true :=
          diagLoop2_some (show fFinite (some (0:ℚ)) = true from rfl) h2
        have hok6 : fFinite a.ke = true ∧ fFinite a.momx = true ∧ fFinite a.momy = true ∧
            fFinite a.cx = true ∧ fFinite a.cy = true ∧ fFinite a.m = true := by
          unfold accumOk at haok
          simp only [Bool.and_eq_true] at haok
          exact ⟨haok.1.1.1.1.1, haok.1.1.1.1.2, haok.1.1.1.2, haok.1.1.2, haok.1.2, haok.2⟩
        have henergy : fFinite (fAdd a.ke pe) = true := by
          simp only [fFinite, fAdd_isSome]
          simp only [fFinite] at hok6 hpeok
          rw [hok6.1, hpeok]
          rfl
        have hcom : fFinite (if fGtZero a.m then (fDiv a.cx a.m, fDiv a.cy a.m)
            else ((some 0 : FD), (some 0 : FD))).1 = true ∧
            fFinite (if fGtZero a.m then (fDiv a.cx a.m, fDiv a.cy a.m)
            else ((some 0 : FD), (some 0 : FD))).2 = true := by
          by_cases hgt : fGtZero a.m = true
          · rw [if_pos hgt]
            rcases hmv : a.m with _ | mv
            · rw [hmv] at hgt; exact absurd hgt (by simp [fGtZero])
            · have hmnz : mv ≠ 0 := by
                rw [hmv] at hgt
                simp only [fGtZero, decide_eq_true_eq] at hgt
                exact ne_of_gt hgt
              rcases hcx : a.cx with _ | cxv
              · rw [hcx] at hok6; simp [fFinite] at hok6
              · rcases hcy : a.cy with _ | cyv
                · rw [hcy] at hok6; simp [fFinite] at hok6
                · constructor <;> simp [fDiv, fFinite, hmv, hcx, hcy, hmnz]
          · rw [if_neg hgt]
            exact ⟨rfl, rfl⟩
        simp only
        constructor
        · intro hfalse
          exfalso
          revert hfalse
          simp only [fFinite] at hok6 hpeok henergy hcom
          simp [hok6.1, hok6.2.1, hok6.2.2.1, hok6.2.2.2.1, hok6.2.2.2.2.1,
            hok6.2.2.2.2.2, hpeok, henergy, hcom.1, hcom.2, fFinite]
        · intro hsome
          exfalso
          rcases hsome with hbad | hbad
          · exact absurd ((diagLoop1_none_iff data accum6Init hinit).mpr hbad) (by simp [h1])
          · exact absurd ((diagLoop2_none_iff sq G eps2 (pairsOf data) (some 0) rfl).mpr hbad)
              (by simp [h2])

/-! ## C8: pinned bodies in the force passes -/

theorem drop_range (n m : ℕ) : (List.range n).drop m = List.range' m (n - m) := by
  rcases Nat.le_total m n with h | h
  · have hsplit : List.range n = List.range' 0 m ++ List.range' m (n - m) := by
      rw [List.range_eq_range']
      have happ := List.range'_append_1 0 m (n - m)
      rw [Nat.zero_add] at happ
      rw [happ]
      congr 1
      omega
    rw [hsplit]
    exact List.drop_left' (by simp)
  · have h1 : (List.range n).drop m = [] := by
      apply List.drop_eq_nil_of_le
      simpa using h
    have h2 : n - m = 0 := Nat.sub_eq_zero_of_le h
    rw [h1, h2]
    rfl

theorem pairIdx_mem {n : ℕ} {p : ℕ × ℕ} (hp : p ∈ pairIdx n) :
    p.1 < p.2 ∧ p.2 < n := by
  unfold pairIdx at hp
  rcases List.mem_flatMap.mp hp with ⟨i, hi, hmem⟩
  rcases List.mem_map.mp hmem with ⟨j, hj, rfl⟩
  rw [drop_range] at hj
  rcases List.mem_range'_1.mp hj with ⟨h1, h2⟩
  exact ⟨by omega, by omega⟩

theorem gPairStep_apply (sq : ℚ → ℚ) (G eps2 : ℚ) (pos : ℕ → ℚ × ℚ) (mass : ℕ → ℚ)
    (pin : ℕ → Bool) (p : ℕ × ℕ) (acc : ℕ → ℚ × ℚ) (k : ℕ) (hne : p.1 ≠ p.2) :
    gPairStep sq G eps2 pos mass pin p acc k =
      acc k + gContrib sq G eps2 pos mass pin k p := by
  rcases p with ⟨i, j⟩
  simp only at hne
  have hji : j ≠ i := fun h => hne h.symm
  unfold gPairStep gContrib
  by_cases hpi : pin i = true <;> by_cases hpj : pin j = true <;>
    by_cases hki : k = i <;> by_cases hkj : k = j
  · exact absurd (hki ▸ hkj : i = j) (by simpa using hne)
  all_goals simp_all [Prod.ext_iff]

theorem foldl_gPairStep_apply (sq : ℚ → ℚ) (G eps2 : ℚ) (pos : ℕ → ℚ × ℚ)
    (mass : ℕ → ℚ) (pin : ℕ → Bool) (l : List (ℕ × ℕ)) (acc : ℕ → ℚ × ℚ) (k : ℕ)
    (hl : ∀ p ∈ l, p.1 ≠ p.2) :
    (l.foldl (fun acc p => gPairStep sq G eps2 pos mass pin p acc) acc) k =
      acc k + (l.map (gContrib sq G eps2 pos mass pin k)).sum := by
  induction l generalizing acc with
  | nil => simp
  | cons p rest ih =>
    rw [List.foldl_cons, List.map_cons, List.sum_cons]
    rw [ih _ (fun q hq => hl q (List.mem_cons_of_mem p hq))]
    rw [gPairStep_apply sq G eps2 pos mass pin p acc k (hl p (List.mem_cons_self p rest))]
    rw [add_assoc]

theorem sum_map_ite_single {k : ℕ} (c : ℕ → ℚ × ℚ) :
    ∀ (l : List ℕ), l.Nodup →
      (l.map fun j => if j = k then c j else 0).sum = if k ∈ l then c k else 0 := by
  intro l
  induction l with
  | nil => simp
  | cons x rest ih =>
    intro hnd
    rw [List.map_cons, List.sum_cons, ih hnd.of_cons]
    by_cases hx : x = k
    · subst hx
      rw [if_pos rfl, if_pos (List.mem_cons_self x rest)]
      rw [if_neg (List.Nodup.not_mem hnd), add_zero]
    · rw [if_neg hx]
      by_cases hk : k ∈ rest
      · rw [if_pos hk, if_pos (List.mem_cons_of_mem x hk), zero_add]
      · rw [if_neg hk, if_neg (by simp [hx, hk, Ne.symm hx]), add_zero]

theorem sum_map_add_pair (f g : ℕ → ℚ × ℚ) (l : List ℕ) :
    (l.map fun j => f j + g j).sum = (l.map f).sum + (l.map g).sum := by
  induction l with
  | nil => simp
  | cons x rest ih =>
    simp only [List.map_cons, List.sum_cons, ih]
    abel

theorem validBodies_writeAcc (accOf : ℕ → ℚ × ℚ) (world : List WBody) (k : ℕ) :
    validBodies (writeAcc accOf world k) = setAccs accOf (validBodies world) k := by
  induction world generalizing k with
  | nil => rfl
  | cons b rest ih =>
    by_cases hb : gravValid b = true
    · rw [show writeAcc accOf (b :: rest) k =
        { b with ax := (accOf k).1, ay := (accOf k).2 } :: writeAcc accOf rest (k + 1) by
          simp [writeAcc, hb]]
      have hvb : gravValid { b with ax := (accOf k).1, ay := (accOf k).2 } = true := hb
      rw [show validBodies ({ b with ax := (accOf k).1, ay := (accOf k).2 }
            :: writeAcc accOf rest (k + 1)) =
          { b with ax := (accOf k).1, ay := (accOf k).2 }
            :: validBodies (writeAcc accOf rest (k + 1)) by
          simp [validBodies, List.filter_cons, hvb]]
      rw [show validBodies (b :: rest) = b :: validBodies rest by
          simp [validBodies, List.filter_cons, hb]]
      rw [ih]
      rfl
    · have hb2 : gravValid b = false := by
        cases h : gravValid b
        · rfl
        · exact absurd h hb
      rw [show writeAcc accOf (b :: rest) k = b :: writeAcc accOf rest k by
          simp [writeAcc, hb2]]
      rw [show validBodies (b :: writeAcc accOf rest k) = validBodies (writeAcc accOf rest k) by
          simp [validBodies, List.filter_cons, hb2]]
      rw [show validBodies (b :: rest) = validBodies rest by
          simp [validBodies, List.filter_cons, hb2]]
      exact ih k

theorem setAccs_getD (accOf : ℕ → ℚ × ℚ) (l : List WBody) (k i : ℕ) (hi : i < l.length) :
    (setAccs accOf l k).getD i default =
      { l.getD i default with ax := (accOf (k + i)).1, ay := (accOf (k + i)).2 } := by
  induction l generalizing k i with
  | nil => simp at hi
  | cons b rest ih =>
    match i with
    | 0 => simp [setAccs]
    | i + 1 =>
      have hi2 : i < rest.length := by simpa using hi
      rw [show setAccs accOf (b :: rest) k =
        { b with ax := (accOf k).1, ay := (accOf k).2 } :: setAccs accOf rest (k + 1) from rfl]
      simp only [List.getD_cons_succ]
      rw [ih (k + 1) i hi2]
      have harith : k + 1 + i = k + (i + 1) := by omega
      rw [harith]

theorem sum_map_flatMap_pair (g : ℕ → List (ℕ × ℕ)) (h : ℕ × ℕ → ℚ × ℚ) (l : List ℕ) :
    ((l.flatMap g).map h).sum = (l.map fun i => ((g i).map h).sum).sum := by
  induction l with
  | nil => rfl
  | cons x rest ih =>
    simp only [List.flatMap_cons, List.map_append, List.sum_append, List.map_cons,
      List.sum_cons, ih]

theorem pairwiseAcc_eq_sum (sq : ℚ → ℚ) (G eps2 : ℚ) (pos : ℕ → ℚ × ℚ) (mass : ℕ → ℚ)
    (pin : ℕ → Bool) (n k : ℕ) (hk : k < n) (hpk : pin k = false) :
    pairwiseAcc sq G eps2 pos mass pin n k =
      (((List.range n).filter (fun j => j ≠ k)).map fun j =>
        pairAccel sq G eps2 (pos k).1 (pos k).2 (pos j).1 (pos j).2 (mass j)).sum := by
  have hdist : ∀ p ∈ pairIdx n, p.1 ≠ p.2 := fun p hp => Nat.ne_of_lt (pairIdx_mem hp).1
  have h1 : pairwiseAcc sq G eps2 pos mass pin n k =
      ((pairIdx n).map (gContrib sq G eps2 pos mass pin k)).sum := by
    unfold pairwiseAcc
    rw [foldl_gPairStep_apply sq G eps2 pos mass pin (pairIdx n) (fun _ => (0, 0)) k hdist]
    exact zero_add _
  rw [h1]
  unfold pairIdx
  rw [sum_map_flatMap_pair]
  have hinner : ∀ i ∈ List.range n,
      ((((List.range n).drop (i + 1)).map fun j => (i, j)).map
        (gContrib sq G eps2 pos mass pin k)).sum =
      (if i = k then
        ((List.range' (k + 1) (n - (k + 1))).map fun j =>
          pairAccel sq G eps2 (pos k).1 (pos k).2 (pos j).1 (pos j).2 (mass j)).sum
      else 0) +
      (if i < k then
        pairAccel sq G eps2 (pos k).1 (pos k).2 (pos i).1 (pos i).2 (mass i)
      else 0) := by
    intro i hi
    rw [List.map_map, drop_range]
    have hsplit : ∀ j, (gContrib sq G eps2 pos mass pin k ∘ fun j => (i, j)) j =
        ((fun j => if k = i ∧ pin i = false then
          pairAccel sq G eps2 (pos i).1 (pos i).2 (pos j).1 (pos j).2 (mass j) else 0) j) +
        ((fun j => if j = k then
          pairAccel sq G eps2 (pos k).1 (pos k).2 (pos i).1 (pos i).2 (mass i) else 0) j) := by
      intro j
      simp only [Function.comp_apply, gContrib]
      congr 1
      by_cases hjk : j = k
      · subst hjk
        simp [hpk]
      · rw [if_neg (fun hc => hjk (hc.1.symm)), if_neg hjk]
    rw [List.map_congr_left (fun j _ => hsplit j), sum_map_add_pair]
    congr 1
    · by_cases hik : i = k
      · subst hik
        rw [if_pos rfl]
        apply congrArg
        apply List.map_congr_left
        intro j _
        rw [if_pos ⟨rfl, hpk⟩]
      · rw [if_neg hik]
        apply List.sum_eq_zero
        intro x hx
        rcases List.mem_map.mp hx with ⟨j, _, rfl⟩
        rw [if_neg (fun hc => hik hc.1.symm)]
    · rw [sum_map_ite_single _ _ (List.nodup_range' _ _)]
      by_cases hik : i < k
      · rw [if_pos hik, if_pos]
        rw [List.mem_range'_1]
        omega
      · rw [if_neg hik, if_neg]
        rw [List.mem_range'_1]
        omega
  rw [List.map_congr_left hinner, sum_map_add_pair]
  have houter1 :
      ((List.range n).map fun i => if i = k then
        ((List.range' (k + 1) (n - (k + 1))).map fun j =>
          pairAccel sq G eps2 (pos k).1 (pos k).2 (pos j).1 (pos j).2 (mass j)).sum
      else 0).sum =
      ((List.range' (k + 1) (n - (k + 1))).map fun j =>
        pairAccel sq G eps2 (pos k).1 (pos k).2 (pos j).1 (pos j).2 (mass j)).sum := by
    rw [sum_map_ite_single _ _ (List.nodup_range n)]
    rw [if_pos (List.mem_range.mpr hk)]
  have houter2 :
      ((List.range n).map fun i => if i < k then
        pairAccel sq G eps2 (pos k).1 (pos k).2 (pos i).1 (pos i).2 (mass i)
      else 0).sum =
      ((List.range k).map fun i =>
        pairAccel sq G eps2 (pos k).1 (pos k).2 (pos i).1 (pos i).2 (mass i)).sum := by
    have hsplit : List.range n = List.range k ++ List.range' k (n - k) := by
      rw [List.range_eq_range', List.range_eq_range']
      have happ := List.range'_append_1 0 k (n - k)
      rw [Nat.zero_add] at happ
      rw [happ]
      congr 1
      omega
    rw [hsplit, List.map_append, List.sum_append]
    have hz : ((List.range' k (n - k)).map fun i => if i < k then
        pairAccel sq G eps2 (pos k).1 (pos k).2 (pos i).1 (pos i).2 (mass i)
      else 0).sum = 0 := by
      apply List.sum_eq_zero
      intro x hx
      rcases List.mem_map.mp hx with ⟨i, hi, rfl⟩
      rcases List.mem_range'_1.mp hi with ⟨h1, _⟩
      rw [if_neg (by omega)]
    rw [hz, add_zero]
    apply congrArg
    apply List.map_congr_left
    intro i hi
    rw [if_pos (List.mem_range.mp hi)]
  rw [houter1, houter2]
  have htarget : (List.range n).filter (fun j => j ≠ k) =
      List.range k ++ List.range' (k + 1) (n - (k + 1)) := by
    have hsplit : List.range n = List.range k ++ (k :: List.range' (k + 1) (n - (k + 1))) := by
      rw [List.range_eq_range', List.range_eq_range']
      have happ := List.range'_append_1 0 k (n - k)
      rw [Nat.zero_add] at happ
      have hcons : List.range' k (n - k) = k :: List.range' (k + 1) (n - (k + 1)) := by
        have hnk : n - k = (n - (k + 1)) + 1 := by omega
        rw [hnk, List.range'_succ]
      rw [← hcons, happ]
      congr 1
      omega
    rw [hsplit, List.filter_append]
    congr 1
    · rw [List.filter_eq_self]
      intro a ha
      simp only [decide_eq_true_eq]
      have := List.mem_range.mp ha
      omega
    · rw [List.filter_cons]
      rw [if_neg (by simp)]
      rw [List.filter_eq_self.mpr]
      intro a ha
      simp only [decide_eq_true_eq]
      rcases List.mem_range'_1.mp ha with ⟨h1, _⟩
      omega
  rw [htarget, List.map_append, List.sum_append, add_comm]

theorem pairwiseAcc_pinned (sq : ℚ → ℚ) (G eps2 : ℚ) (pos : ℕ → ℚ × ℚ) (mass : ℕ → ℚ)
    (pin : ℕ → Bool) (n k : ℕ) (hpk : pin k = true) :
    pairwiseAcc sq G eps2 pos mass pin n k = (0, 0) := by
  have hdist : ∀ p ∈ pairIdx n, p.1 ≠ p.2 := fun p hp => Nat.ne_of_lt (pairIdx_mem hp).1
  unfold pairwiseAcc
  rw [foldl_gPairStep_apply sq G eps2 pos mass pin (pairIdx n) (fun _ => (0, 0)) k hdist]
  have hz : (List.map (gContrib sq G eps2 pos mass pin k) (pairIdx n)).sum = 0 := by
    apply List.sum_eq_zero
    intro x hx
    rcases List.mem_map.mp hx with ⟨p, _, rfl⟩
    unfold gContrib
    rw [if_neg (fun hc => by rw [← hc.1, hpk] at hc; exact absurd hc.2 (by simp)),
      if_neg (fun hc => by rw [← hc.1, hpk] at hc; exact absurd hc.2 (by simp))]
    exact add_zero 0
  rw [hz]
  exact add_zero _

/-- C8: in both force paths, a pinned (valid) body ends the gravity pass with
zero accumulated acceleration, while it still acts as a source: on the exact
pairwise path every non-pinned body's acceleration is the sum of the softened
pair terms over all other valid bodies, pinned ones included, and on the
Barnes–Hut path the tree is built over every valid body (pinned included) and
queried only for the non-pinned ones. -/
theorem c8_pinned_force_passes (sq : ℚ → ℚ) (fuel : ℕ) (cfg : Config) (world : List WBody) :
    optAll (c8Prop sq fuel cfg world) (compute_gravity sq fuel cfg world) := by
  simp only [compute_gravity]
  by_cases hn : (validBodies world).length = 0
  · rw [if_pos hn]
    refine ⟨?_, ?_, ?_⟩
    · intro i hi
      rw [hn] at hi
      exact absurd hi (by omega)
    · intro _ i hi
      rw [hn] at hi
      exact absurd hi (by omega)
    · intro hc
      rw [hn] at hc
      exact absurd hc.2 (by omega)
  · rw [if_neg hn]
    by_cases hbh : 0 ≤ cfg.bh_threshold ∧ cfg.bh_threshold.toNat < (validBodies world).length
    · rw [if_pos hbh]
      cases hbuild : build fuel (spBodies (validBodies world)) with
      | none => exact trivial
      | some t =>
        refine ⟨?_, ?_, ?_⟩
        · intro i hi hpin
          beta_reduce
          have hacc := setAccs_getD (fun i =>
            if (validBodies world).getD i default |>.pinned then (0, 0)
            else compute_force sq t
              ⟨((validBodies world).getD i default).px, ((validBodies world).getD i default).py,
                ((validBodies world).getD i default).mass, (i : ℤ)⟩
              cfg.bh_theta cfg.g (cfg.softening * cfg.softening))
            (validBodies world) 0 i hi
          rw [validBodies_writeAcc, hacc]
          simp only [Nat.zero_add, hpin, if_pos]
        · intro hc
          exact absurd hbh hc
        · intro _
          refine ⟨t, hbuild, ?_⟩
          intro i hi hpin
          beta_reduce
          have hacc := setAccs_getD (fun i =>
            if (validBodies world).getD i default |>.pinned then (0, 0)
            else compute_force sq t
              ⟨((validBodies world).getD i default).px, ((validBodies world).getD i default).py,
                ((validBodies world).getD i default).mass, (i : ℤ)⟩
              cfg.bh_theta cfg.g (cfg.softening * cfg.softening))
            (validBodies world) 0 i hi
          rw [validBodies_writeAcc, hacc]
          simp only [Nat.zero_add, hpin]
          rw [if_neg (by simp [hpin])]
    · rw [if_neg hbh]
      refine ⟨?_, ?_, ?_⟩
      · intro i hi hpin
        beta_reduce
        have hacc := setAccs_getD (pairwiseAcc sq cfg.g (cfg.softening * cfg.softening)
          (fun i => (((validBodies world).getD i default).px,
            ((validBodies world).getD i default).py))
          (fun i => ((validBodies world).getD i default).mass)
          (fun i => ((validBodies world).getD i default).pinned)
          (validBodies world).length) (validBodies world) 0 i hi
        rw [validBodies_writeAcc, hacc]
        simp only [Nat.zero_add]
        rw [pairwiseAcc_pinned _ _ _ _ _ _ _ _ hpin]
      · intro _ i hi hpin
        beta_reduce
        have hacc := setAccs_getD (pairwiseAcc sq cfg.g (cfg.softening * cfg.softening)
          (fun i => (((validBodies world).getD i default).px,
            ((validBodies world).getD i default).py))
          (fun i => ((validBodies world).getD i default).mass)
          (fun i => ((validBodies world).getD i default).pinned)
          (validBodies world).length) (validBodies world) 0 i hi
        rw [validBodies_writeAcc, hacc]
        simp only [Nat.zero_add]
        rw [pairwiseAcc_eq_sum _ _ _ _ _ _ _ _ hi hpin]
      · intro hc
        exact absurd hc hbh

/-! ## C9: aggregation invariant of the built quadtree -/

theorem foldl_aggChild (l : List QNode) (acc : ℚ × ℚ × ℚ) :
    l.foldl aggChild acc =
      (acc.1 + ((l.filter fun c => 0 < c.mass).map QNode.mass).sum,
       acc.2.1 + ((l.filter fun c => 0 < c.mass).map fun c => c.comx * c.mass).sum,
       acc.2.2 + ((l.filter fun c => 0 < c.mass).map fun c => c.comy * c.mass).sum) := by
  induction l generalizing acc with
  | nil => simp
  | cons c rest ih =>
    rw [List.foldl_cons, ih, List.filter_cons]
    by_cases hc : 0 < c.mass
    · rw [if_pos (by simpa using hc)]
      simp only [aggChild, if_pos hc, List.map_cons, List.sum_cons, Prod.ext_iff]
      refine ⟨by ring, by ring, by ring⟩
    · rw [if_neg (by simpa using hc)]
      simp only [aggChild, if_neg hc]

theorem bodiesIn_aggregate (t : QNode) : bodiesIn (aggregate t) = bodiesIn t := by
  induction t with
  | leaf cx cy hs m cox coy body =>
    cases body <;> rfl
  | branch cx cy hs m cox coy nw ne sw se ihnw ihne ihsw ihse =>
    show bodiesIn (aggregate nw) ++ bodiesIn (aggregate ne) ++ bodiesIn (aggregate sw) ++
      bodiesIn (aggregate se) = _
    rw [ihnw, ihne, ihsw, ihse]
    rfl

theorem totalMass_nonneg {l : List SPBody} (hpos : ∀ b ∈ l, 0 < b.mass) :
    0 ≤ totalMass l := by
  induction l with
  | nil => simp [totalMass]
  | cons b rest ih =>
    have hb := hpos b (List.mem_cons_self b rest)
    have hr := ih fun x hx => hpos x (List.mem_cons_of_mem b hx)
    unfold totalMass at *
    rw [List.map_cons, List.sum_cons]
    linarith

theorem totalMass_pos {l : List SPBody} (hpos : ∀ b ∈ l, 0 < b.mass) (hne : l ≠ []) :
    0 < totalMass l := by
  match l with
  | [] => exact absurd rfl hne
  | b :: rest =>
    have hb := hpos b (List.mem_cons_self b rest)
    have hr := totalMass_nonneg fun x hx => hpos x (List.mem_cons_of_mem b hx)
    unfold totalMass at *
    rw [List.map_cons, List.sum_cons]
    linarith

theorem sum_filter_mass (l : List QNode) (hz : ∀ c ∈ l, ¬(0 < c.mass) → c.mass = 0) :
    ((l.filter fun c => 0 < c.mass).map QNode.mass).sum = (l.map QNode.mass).sum := by
  induction l with
  | nil => rfl
  | cons c rest ih =>
    rw [List.filter_cons]
    by_cases hc : 0 < c.mass
    · rw [if_pos (by simpa using hc)]
      simp only [List.map_cons, List.sum_cons]
      rw [ih fun x hx => hz x (List.mem_cons_of_mem c hx)]
    · rw [if_neg (by simpa using hc)]
      simp only [List.map_cons, List.sum_cons]
      rw [ih fun x hx => hz x (List.mem_cons_of_mem c hx)]
      rw [hz c (List.mem_cons_self c rest) hc]
      ring

theorem mass_aggregate (t : QNode)
    (hpos : ∀ b ∈ bodiesIn t, 0 < b.mass) :
    (aggregate t).mass = totalMass (bodiesIn t) := by
  induction t with
  | leaf cx cy hs m cox coy body =>
    cases body <;> simp [aggregate, bodiesIn, totalMass, QNode.mass]
  | branch cx cy hs m cox coy nw ne sw se ihnw ihne ihsw ihse =>
    have hnw := ihnw fun b hb => hpos b (by simp [bodiesIn, hb])
    have hne2 := ihne fun b hb => hpos b (by simp [bodiesIn, hb])
    have hsw := ihsw fun b hb => hpos b (by simp [bodiesIn, hb])
    have hse := ihse fun b hb => hpos b (by simp [bodiesIn, hb])
    have hchild : ∀ c ∈ [aggregate nw, aggregate ne, aggregate sw, aggregate se],
        c.mass = totalMass (bodiesIn c) ∧ ∀ b ∈ bodiesIn c, 0 < b.mass := by
      intro c hc
      simp only [List.mem_cons, List.not_mem_nil, or_false] at hc
      rcases hc with rfl | rfl | rfl | rfl
      · exact ⟨by rw [bodiesIn_aggregate]; exact hnw,
          by rw [bodiesIn_aggregate]; exact fun b hb => hpos b (by simp [bodiesIn, hb])⟩
      · exact ⟨by rw [bodiesIn_aggregate]; exact hne2,
          by rw [bodiesIn_aggregate]; exact fun b hb => hpos b (by simp [bodiesIn, hb])⟩
      · exact ⟨by rw [bodiesIn_aggregate]; exact hsw,
          by rw [bodiesIn_aggregate]; exact fun b hb => hpos b (by simp [bodiesIn, hb])⟩
      · exact ⟨by rw [bodiesIn_aggregate]; exact hse,
          by rw [bodiesIn_aggregate]; exact fun b hb => hpos b (by simp [bodiesIn, hb])⟩
    have hz : ∀ c ∈ [aggregate nw, aggregate ne, aggregate sw, aggregate se],
        ¬(0 < c.mass) → c.mass = 0 := by
      intro c hc hcm
      rcases hchild c hc with ⟨hceq, hcpos⟩
      by_cases hcne : bodiesIn c = []
      · rw [hceq, hcne]; rfl
      · exact absurd (hceq ▸ totalMass_pos hcpos hcne) hcm
    show ([aggregate nw, aggregate ne, aggregate sw, aggregate se].foldl aggChild (0, 0, 0)).1 = _
    rw [foldl_aggChild]
    show 0 + _ = _
    rw [zero_add, sum_filter_mass _ hz]
    show (aggregate nw).mass + ((aggregate ne).mass + ((aggregate sw).mass +
      ((aggregate se).mass + 0))) = _
    rw [hnw, hne2, hsw, hse]
    show _ = totalMass (bodiesIn nw ++ bodiesIn ne ++ bodiesIn sw ++ bodiesIn se)
    unfold totalMass
    simp only [List.map_append, List.sum_append]
    ring

theorem filter_mass_sum_nonneg (l : List QNode) :
    0 ≤ ((l.filter fun c => 0 < c.mass).map QNode.mass).sum := by
  induction l with
  | nil => simp
  | cons c rest ih =>
    rw [List.filter_cons]
    by_cases hc : 0 < c.mass
    · rw [if_pos (by simpa using hc)]
      simp only [List.map_cons, List.sum_cons]
      linarith
    · rw [if_neg (by simpa using hc)]
      exact ih

theorem filter_mass_sum_pos (l : List QNode) (c : QNode)
    (hc : c ∈ l.filter fun c => 0 < c.mass) :
    0 < ((l.filter fun c => 0 < c.mass).map QNode.mass).sum := by
  induction l with
  | nil => simp at hc
  | cons d rest ih =>
    rw [List.filter_cons]
    by_cases hd : 0 < d.mass
    · rw [if_pos (by simpa using hd)]
      simp only [List.map_cons, List.sum_cons]
      have := filter_mass_sum_nonneg rest
      linarith
    · rw [if_neg (by simpa using hd)]
      apply ih
      rw [List.filter_cons] at hc
      rw [if_neg (by simpa using hd)] at hc
      exact hc

theorem aggregate_aggInv (t : QNode) (hpos : ∀ b ∈ bodiesIn t, 0 < b.mass) :
    aggInv (aggregate t) := by
  induction t with
  | leaf cx cy hs m cox coy body =>
    cases body <;> simp [aggregate, aggInv, nodeAgg]
  | branch cx cy hs m cox coy nw ne sw se ihnw ihne ihsw ihse =>
    have hposnw : ∀ b ∈ bodiesIn nw, 0 < b.mass := fun b hb => hpos b (by simp [bodiesIn, hb])
    have hposne : ∀ b ∈ bodiesIn ne, 0 < b.mass := fun b hb => hpos b (by simp [bodiesIn, hb])
    have hpossw : ∀ b ∈ bodiesIn sw, 0 < b.mass := fun b hb => hpos b (by simp [bodiesIn, hb])
    have hposse : ∀ b ∈ bodiesIn se, 0 < b.mass := fun b hb => hpos b (by simp [bodiesIn, hb])
    have hchild : ∀ c ∈ [aggregate nw, aggregate ne, aggregate sw, aggregate se],
        c.mass = totalMass (bodiesIn c) ∧ ∀ b ∈ bodiesIn c, 0 < b.mass := by
      intro c hc
      simp only [List.mem_cons, List.not_mem_nil, or_false] at hc
      rcases hc with rfl | rfl | rfl | rfl
      · exact ⟨by rw [bodiesIn_aggregate]; exact mass_aggregate nw hposnw,
          by rw [bodiesIn_aggregate]; exact hposnw⟩
      · exact ⟨by rw [bodiesIn_aggregate]; exact mass_aggregate ne hposne,
          by rw [bodiesIn_aggregate]; exact hposne⟩
      · exact ⟨by rw [bodiesIn_aggregate]; exact mass_aggregate sw hpossw,
          by rw [bodiesIn_aggregate]; exact hpossw⟩
      · exact ⟨by rw [bodiesIn_aggregate]; exact mass_aggregate se hposse,
          by rw [bodiesIn_aggregate]; exact hposse⟩
    have hflt : [aggregate nw, aggregate ne, aggregate sw, aggregate se].filter
          (fun c => bodiesIn c ≠ []) =
        [aggregate nw, aggregate ne, aggregate sw, aggregate se].filter
          (fun c => 0 < c.mass) := by
      apply List.filter_congr
      intro c hc
      rcases hchild c hc with ⟨hceq, hcpos⟩
      by_cases hcne : bodiesIn c = []
      · have hmz : c.mass = 0 := by rw [hceq, hcne]; rfl
        simp [hcne, hmz]
      · have hmp : 0 < c.mass := by rw [hceq]; exact totalMass_pos hcpos hcne
        simp [hcne, hmp]
    refine ⟨?_, ihnw hposnw, ihne hposne, ihsw hpossw, ihse hposse⟩
    have hfold := foldl_aggChild [aggregate nw, aggregate ne, aggregate sw, aggregate se] (0, 0, 0)
    refine ⟨?_, ?_, ?_⟩
    · rw [hflt, hfold]
      dsimp only
      rw [zero_add]
    · rw [hflt, hfold]
      dsimp only
      simp only [zero_add]
      by_cases hp : 0 < ((([aggregate nw, aggregate ne, aggregate sw, aggregate se].filter
          fun c => 0 < c.mass).map QNode.mass).sum)
      · rw [if_pos hp, one_div, mul_assoc, inv_mul_cancel₀ (ne_of_gt hp), mul_one]
      · rw [if_neg hp, zero_mul]
        symm
        apply List.sum_eq_zero
        intro x hx
        rcases List.mem_map.mp hx with ⟨c, hc, rfl⟩
        exact absurd (filter_mass_sum_pos _ c hc) hp
    · rw [hflt, hfold]
      dsimp only
      simp only [zero_add]
      by_cases hp : 0 < ((([aggregate nw, aggregate ne, aggregate sw, aggregate se].filter
          fun c => 0 < c.mass).map QNode.mass).sum)
      · rw [if_pos hp, one_div, mul_assoc, inv_mul_cancel₀ (ne_of_gt hp), mul_one]
      · rw [if_neg hp, zero_mul]
        symm
        apply List.sum_eq_zero
        intro x hx
        rcases List.mem_map.mp hx with ⟨c, hc, rfl⟩
        exact absurd (filter_mass_sum_pos _ c hc) hp

theorem bodiesIn_subdivide (cx cy hs m cox coy : ℚ) :
    bodiesIn (subdivide cx cy hs m cox coy) = [] := rfl

theorem insertB_subset (fuel : ℕ) (t : QNode) (b : SPBody) (t2 : QNode)
    (h : insertB fuel t b = some t2) :
    ∀ x ∈ bodiesIn t2, x ∈ bodiesIn t ∨ x = b := by
  induction fuel generalizing t b t2 with
  | zero => simp [insertB] at h
  | succ fuel ih =>
    match t with
    | .leaf cx cy hs m cox coy none =>
      have h2 : t2 = .leaf cx cy hs m cox coy (some b) := by
        rw [show insertB (fuel + 1) (.leaf cx cy hs m cox coy none) b =
          some (.leaf cx cy hs m cox coy (some b)) from rfl] at h
        exact (Option.some_inj.mp h).symm
      subst h2
      intro x hx
      rcases List.mem_singleton.mp hx with rfl
      exact Or.inr rfl
    | .leaf cx cy hs m cox coy (some ex) =>
      rw [show insertB (fuel + 1) (.leaf cx cy hs m cox coy (some ex)) b =
        (match insertB fuel (subdivide cx cy hs m cox coy) ex with
         | none => none
         | some t1 => insertB fuel t1 b) from rfl] at h
      cases h1 : insertB fuel (subdivide cx cy hs m cox coy) ex with
      | none => rw [h1] at h; exact absurd h (by simp)
      | some t1 =>
        rw [h1] at h
        intro x hx
        rcases ih t1 b t2 h x hx with hx1 | rfl
        · rcases ih (subdivide cx cy hs m cox coy) ex t1 h1 x hx1 with hx2 | rfl
          · rw [bodiesIn_subdivide] at hx2
            exact absurd hx2 (by simp)
          · exact Or.inl (by simp [bodiesIn])
        · exact Or.inr rfl
    | .branch cx cy hs m cox coy nw ne sw se =>
      have hred : insertB (fuel + 1) (.branch cx cy hs m cox coy nw ne sw se) b =
          (match get_quadrant cx cy b.posx b.posy with
           | 0 => (insertB fuel nw b).map (fun c => .branch cx cy hs m cox coy c ne sw se)
           | 1 => (insertB fuel ne b).map (fun c => .branch cx cy hs m cox coy nw c sw se)
           | 2 => (insertB fuel sw b).map (fun c => .branch cx cy hs m cox coy nw ne c se)
           | _ => (insertB fuel se b).map (fun c => .branch cx cy hs m cox coy nw ne sw c)) :=
        rfl
      rw [hred] at h
      rcases hq : get_quadrant cx cy b.posx b.posy with _ | _ | _ | q
      all_goals rw [hq] at h
      · cases h1 : insertB fuel nw b with
        | none => rw [h1] at h; exact absurd h (by simp)
        | some c =>
          rw [h1] at h
          have h2 : t2 = .branch cx cy hs m cox coy c ne sw se := (Option.some_inj.mp h).symm
          subst h2
          intro x hx
          simp only [bodiesIn, List.mem_append] at hx
          rcases hx with ((hx | hx) | hx) | hx
          · rcases ih nw b c h1 x hx with hh | rfl
            · exact Or.inl (by simp [bodiesIn, hh])
            · exact Or.inr rfl
          · exact Or.inl (by simp [bodiesIn, hx])
          · exact Or.inl (by simp [bodiesIn, hx])
          · exact Or.inl (by simp [bodiesIn, hx])
      · cases h1 : insertB fuel ne b with
        | none => rw [h1] at h; exact absurd h (by simp)
        | some c =>
          rw [h1] at h
          have h2 : t2 = .branch cx cy hs m cox coy nw c sw se := (Option.some_inj.mp h).symm
          subst h2
          intro x hx
          simp only [bodiesIn, List.mem_append] at hx
          rcases hx with ((hx | hx) | hx) | hx
          · exact Or.inl (by simp [bodiesIn, hx])
          · rcases ih ne b c h1 x hx with hh | rfl
            · exact Or.inl (by simp [bodiesIn, hh])
            · exact Or.inr rfl
          · exact Or.inl (by simp [bodiesIn, hx])
          · exact Or.inl (by simp [bodiesIn, hx])
      · cases h1 : insertB fuel sw b with
        | none => rw [h1] at h; exact absurd h (by simp)
        | some c =>
          rw [h1] at h
          have h2 : t2 = .branch cx cy hs m cox coy nw ne c se := (Option.some_inj.mp h).symm
          subst h2
          intro x hx
          simp only [bodiesIn, List.mem_append] at hx
          rcases hx with ((hx | hx) | hx) | hx
          · exact Or.inl (by simp [bodiesIn, hx])
          · exact Or.inl (by simp [bodiesIn, hx])
          · rcases ih sw b c h1 x hx with hh | rfl
            · exact Or.inl (by simp [bodiesIn, hh])
            · exact Or.inr rfl
          · exact Or.inl (by simp [bodiesIn, hx])
      · cases h1 : insertB fuel se b with
        | none => rw [h1] at h; exact absurd h (by simp)
        | some c =>
          rw [h1] at h
          have h2 : t2 = .branch cx cy hs m cox coy nw ne sw c := (Option.some_inj.mp h).symm
          subst h2
          intro x hx
          simp only [bodiesIn, List.mem_append] at hx
          rcases hx with ((hx | hx) | hx) | hx
          · exact Or.inl (by simp [bodiesIn, hx])
          · exact Or.inl (by simp [bodiesIn, hx])
          · exact Or.inl (by simp [bodiesIn, hx])
          · rcases ih se b c h1 x hx with hh | rfl
            · exact Or.inl (by simp [bodiesIn, hh])
            · exact Or.inr rfl

theorem foldlM_insert_subset (fuel : ℕ) (l : List SPBody) (t0 tF : QNode)
    (h : l.foldlM (fun t b => insertB fuel t b) t0 = some tF) :
    ∀ x ∈ bodiesIn tF, x ∈ bodiesIn t0 ∨ x ∈ l := by
  induction l generalizing t0 with
  | nil =>
    simp only [List.foldlM_nil] at h
    rw [(Option.some_inj.mp h).symm]
    exact fun x hx => Or.inl hx
  | cons b rest ih =>
    rw [List.foldlM_cons] at h
    cases h1 : insertB fuel t0 b with
    | none => rw [h1] at h; exact absurd h (by simp)
    | some t1 =>
      rw [h1] at h
      intro x hx
      rcases ih t1 h x hx with hx1 | hxl
      · rcases insertB_subset fuel t0 b t1 h1 x hx1 with hh | rfl
        · exact Or.inl hh
        · exact Or.inr (by simp)
      · exact Or.inr (List.mem_cons_of_mem b hxl)

theorem build_aggInv_aux (fuel : ℕ) (l : List SPBody) (root : QNode)
    (hroot : bodiesIn root = []) (hpos : ∀ b ∈ l, 0 < b.mass) :
    optAll aggInv ((l.foldlM (fun t b => insertB fuel t b) root).map aggregate) := by
  cases hfold : l.foldlM (fun t b => insertB fuel t b) root with
  | none => exact trivial
  | some t0 =>
    show aggInv (aggregate t0)
    apply aggregate_aggInv
    intro x hx
    rcases foldlM_insert_subset fuel l root t0 hfold x hx with hx0 | hxl
    · rw [hroot] at hx0
      exact absurd hx0 (by simp)
    · exact hpos x hxl

/-- C9: whenever the quadtree build succeeds over a (non-empty) set of bodies
of positive mass — the only kind the gravity pass ever hands it — every node
of the resulting tree satisfies the aggregation invariant: an internal node's
mass and center of mass are the mass-weighted sum of its non-empty children,
and a leaf carries its resident body's mass and position, or zeros when
empty.  On the empty body set the source leaves the tree unbuilt, which the
embedding renders as `none`. -/
theorem c9_build_aggregation_invariant (fuel : ℕ) (bodies : List SPBody)
    (hpos : ∀ b ∈ bodies, 0 < b.mass) :
    optAll aggInv (build fuel bodies) := by
  match bodies with
  | [] => exact trivial
  | b0 :: rest =>
    show optAll aggInv (build fuel (b0 :: rest))
    simp only [build]
    exact build_aggInv_aux fuel (b0 :: rest) _ rfl hpos

/-- C9 witness: two distinct unit-mass bodies, for which the build hypotheses
hold. -/
theorem c9_build_aggregation_invariant_witness :
    optAll aggInv (build 32 [⟨0, 0, 1, 0⟩, ⟨3, 0, 1, 1⟩]) :=
  c9_build_aggregation_invariant 32 [⟨0, 0, 1, 0⟩, ⟨3, 0, 1, 1⟩] (by decide)

/-! ## C1: pinned invariance across steps without merges on the pinned body -/

theorem pairStep_events_mono (dr : ℚ → ℚ) (i j : ℕ) (st : PassState) (ev : ℕ × ℕ)
    (h : ev ∈ st.events) : ev ∈ (pairStep dr i j st).events := by
  unfold pairStep
  dsimp only
  split
  · exact h
  · split
    · exact h
    · split
      · split
        · exact h
        · exact List.mem_append_left _ h
      · split
        · exact h
        · exact List.mem_append_left _ h

theorem innerLoop_events_mono (dr : ℚ → ℚ) (i : ℕ) :
    ∀ (c j : ℕ) (st : PassState) (ev : ℕ × ℕ), ev ∈ st.events →
      ev ∈ (innerLoop dr i c j st).events := by
  intro c
  induction c with
  | zero => intro j st ev h; exact h
  | succ c ih =>
    intro j st ev h
    exact ih (j + 1) (pairStep dr i j st) ev (pairStep_events_mono dr i j st ev h)

theorem outerLoop_events_mono (dr : ℚ → ℚ) (n : ℕ) :
    ∀ (c i : ℕ) (st : PassState) (ev : ℕ × ℕ), ev ∈ st.events →
      ev ∈ (outerLoop dr n c i st).events := by
  intro c
  induction c with
  | zero => intro i st ev h; exact h
  | succ c ih =>
    intro i st ev h
    apply ih
    by_cases ha : st.alive i = true
    · rw [if_pos ha]
      exact innerLoop_events_mono dr i _ _ st ev h
    · rw [if_neg ha]
      exact h

theorem eidView_updW (e i : ℕ) (f : WBody → WBody) (hf : ∀ b, (f b).eid = b.eid)
    (hne : i ≠ e) (w : List WBody) : eidView e (updW i f w) = eidView e w := by
  induction w with
  | nil => rfl
  | cons b rest ih =>
    show eidView e ((if b.eid = i then f b else b) :: updW i f rest) = _
    unfold eidView at *
    rw [List.filter_cons, List.filter_cons]
    by_cases hb : b.eid = i
    · rw [if_pos hb]
      rw [if_neg (by simp [hf b, hb, hne]), if_neg (by simp [hb, hne])]
      exact ih
    · rw [if_neg hb]
      by_cases hbe : b.eid = e
      · rw [if_pos (by simp [hbe]), if_pos (by simp [hbe])]
        rw [ih]
      · rw [if_neg (by simp [hbe]), if_neg (by simp [hbe])]
        exact ih

theorem eidView_delW (e i : ℕ) (hne : i ≠ e) (w : List WBody) :
    eidView e (delW i w) = eidView e w := by
  induction w with
  | nil => rfl
  | cons b rest ih =>
    show eidView e (List.filter _ (b :: rest)) = _
    unfold eidView delW at *
    rw [List.filter_cons]
    by_cases hb : b.eid = i
    · rw [if_neg (by simp [hb])]
      rw [List.filter_cons]
      rw [if_neg (by simp [hb, hne])]
      exact ih
    · rw [if_pos (by simp [hb])]
      rw [List.filter_cons, List.filter_cons]
      by_cases hbe : b.eid = e
      · rw [if_pos (by simp [hbe]), if_pos (by simp [hbe])]
        rw [ih]
      · rw [if_neg (by simp [hbe]), if_neg (by simp [hbe])]
        exact ih

theorem mergedBody_eid (dr : ℚ → ℚ) (S D : BodyRef) (b : WBody) :
    (mergedBody dr S D b).eid = b.eid := rfl

theorem pairStep_eidView (dr : ℚ → ℚ) (e i j : ℕ) (st st2 : PassState)
    (heq : pairStep dr i j st = st2)
    (hev : ∀ ev ∈ st2.events, ev.1 ≠ e ∧ ev.2 ≠ e) :
    eidView e st2.world = eidView e st.world := by
  unfold pairStep at heq
  dsimp only at heq
  split at heq
  · rw [← heq]
  · split at heq
    · rw [← heq]
    · split at heq
      · split at heq
        · rw [← heq]
        · subst heq
          have hse := hev _ (List.mem_append_right _ (List.mem_singleton.mpr rfl))
          show eidView e (delW _ (updW _ _ st.world)) = _
          rw [eidView_delW e _ hse.2 _, eidView_updW e _ _ (mergedBody_eid dr _ _) hse.1]
      · split at heq
        · rw [← heq]
        · subst heq
          have hse := hev _ (List.mem_append_right _ (List.mem_singleton.mpr rfl))
          show eidView e (delW _ (updW _ _ st.world)) = _
          rw [eidView_delW e _ hse.2 _, eidView_updW e _ _ (mergedBody_eid dr _ _) hse.1]

theorem innerLoop_eidView (dr : ℚ → ℚ) (e i : ℕ) :
    ∀ (c j : ℕ) (st : PassState),
      (∀ ev ∈ (innerLoop dr i c j st).events, ev.1 ≠ e ∧ ev.2 ≠ e) →
      eidView e (innerLoop dr i c j st).world = eidView e st.world := by
  intro c
  induction c with
  | zero => intro j st _; rfl
  | succ c ih =>
    intro j st hev
    show eidView e (innerLoop dr i c (j + 1) (pairStep dr i j st)).world = _
    rw [ih (j + 1) (pairStep dr i j st) hev]
    exact pairStep_eidView dr e i j st _ rfl fun ev hm =>
      hev ev (innerLoop_events_mono dr i c (j + 1) _ ev hm)

theorem outerLoop_eidView (dr : ℚ → ℚ) (e n : ℕ) :
    ∀ (c i : ℕ) (st : PassState),
      (∀ ev ∈ (outerLoop dr n c i st).events, ev.1 ≠ e ∧ ev.2 ≠ e) →
      eidView e (outerLoop dr n c i st).world = eidView e st.world := by
  intro c
  induction c with
  | zero => intro i st _; rfl
  | succ c ih =>
    intro i st hev
    have hev' : ∀ ev ∈ (outerLoop dr n c (i + 1)
        (if st.alive i then innerLoop dr i (n - (i + 1)) (i + 1) st else st)).events,
        ev.1 ≠ e ∧ ev.2 ≠ e := hev
    show eidView e (outerLoop dr n c (i + 1)
        (if st.alive i then innerLoop dr i (n - (i + 1)) (i + 1) st else st)).world
      = eidView e st.world
    by_cases ha : st.alive i = true
    · rw [if_pos ha] at hev' ⊢
      rw [ih (i + 1) _ hev']
      exact innerLoop_eidView dr e i (n - (i + 1)) (i + 1) st fun ev hm =>
        hev' ev (outerLoop_events_mono dr n c (i + 1) _ ev hm)
    · rw [if_neg ha] at hev' ⊢
      exact ih (i + 1) st hev'

theorem resolveE_eidView (dr : ℚ → ℚ) (e : ℕ) (world : List WBody)
    (hev : ∀ ev ∈ (resolveE dr world).2, ev.1 ≠ e ∧ ev.2 ≠ e) :
    eidView e (resolveE dr world).1 = eidView e world := by
  unfold resolveE at hev ⊢
  dsimp only at hev ⊢
  by_cases hn : (collisionSnapshot dr world).length < 2
  · rw [if_pos hn]
  · rw [if_neg hn] at hev ⊢
    exact outerLoop_eidView dr e _ _ 0 _ hev

theorem mem_eidView {e : ℕ} {b : WBody} {w : List WBody} :
    b ∈ eidView e w ↔ b ∈ w ∧ b.eid = e := by
  unfold eidView
  simp [List.mem_filter]

theorem pinnedKept_of_eidView {e : ℕ} {px0 py0 vx0 vy0 : ℚ} {w1 w2 : List WBody}
    (hv : eidView e w2 = eidView e w1) (h : pinnedKept e px0 py0 vx0 vy0 w1) :
    pinnedKept e px0 py0 vx0 vy0 w2 := by
  obtain ⟨⟨b, hb, hbe⟩, hc⟩ := h
  constructor
  · have hm : b ∈ eidView e w2 := by rw [hv]; exact mem_eidView.mpr ⟨hb, hbe⟩
    exact ⟨b, (mem_eidView.mp hm).1, (mem_eidView.mp hm).2⟩
  · intro b2 hb2 hb2e
    have hm : b2 ∈ eidView e w1 := by rw [← hv]; exact mem_eidView.mpr ⟨hb2, hb2e⟩
    exact hc b2 (mem_eidView.mp hm).1 hb2e

theorem pinnedKept_of_pvView {e : ℕ} {px0 py0 vx0 vy0 : ℚ} {w1 w2 : List WBody}
    (hv : w2.map pvView = w1.map pvView) (h : pinnedKept e px0 py0 vx0 vy0 w1) :
    pinnedKept e px0 py0 vx0 vy0 w2 := by
  obtain ⟨⟨b, hb, hbe⟩, hc⟩ := h
  constructor
  · have hmem : pvView b ∈ w2.map pvView := by
      rw [hv]; exact List.mem_map_of_mem pvView hb
    obtain ⟨b2, hb2, hpv⟩ := List.mem_map.mp hmem
    simp only [pvView, Prod.mk.injEq] at hpv
    exact ⟨b2, hb2, hpv.1.trans hbe⟩
  · intro b2 hb2 hb2e
    have hmem : pvView b2 ∈ w1.map pvView := by
      rw [← hv]; exact List.mem_map_of_mem pvView hb2
    obtain ⟨b1, hb1, hpv⟩ := List.mem_map.mp hmem
    simp only [pvView, Prod.mk.injEq] at hpv
    obtain ⟨he, hpx, hpy, hvx, hvy, hpin⟩ := hpv
    have hf := hc b1 hb1 (he.trans hb2e)
    exact ⟨by rw [← hpin]; exact hf.1, by rw [← hpx]; exact hf.2.1,
      by rw [← hpy]; exact hf.2.2.1, by rw [← hvx]; exact hf.2.2.2.1,
      by rw [← hvy]; exact hf.2.2.2.2⟩

theorem writeAcc_pvView (accOf : ℕ → ℚ × ℚ) :
    ∀ (w : List WBody) (k : ℕ), (writeAcc accOf w k).map pvView = w.map pvView := by
  intro w
  induction w with
  | nil => intro k; rfl
  | cons b rest ih =>
    intro k
    show (writeAcc accOf (b :: rest) k).map pvView = _
    unfold writeAcc
    by_cases hg : gravValid b
    · rw [if_pos hg]
      simp only [List.map_cons]
      rw [ih (k + 1)]
      rfl
    · rw [if_neg hg]
      simp only [List.map_cons]
      rw [ih k]

theorem compute_gravity_pvView (sq : ℚ → ℚ) (fuel : ℕ) (cfg : Config) (w : List WBody) :
    optAll (fun w2 => w2.map pvView = w.map pvView) (compute_gravity sq fuel cfg w) := by
  unfold compute_gravity
  dsimp only
  by_cases hn : (validBodies w).length = 0
  · rw [if_pos hn]
    show w.map pvView = w.map pvView
    rfl
  · rw [if_neg hn]
    by_cases hbh : 0 ≤ cfg.bh_threshold ∧ cfg.bh_threshold.toNat < (validBodies w).length
    · rw [if_pos hbh]
      cases build fuel (spBodies (validBodies w)) with
      | none => exact trivial
      | some t => exact writeAcc_pvView _ w 0
    · rw [if_neg hbh]
      exact writeAcc_pvView _ w 0

theorem compute_gravity_kept (sq : ℚ → ℚ) (fuel : ℕ) (cfg : Config)
    (e : ℕ) (px0 py0 vx0 vy0 : ℚ) (w : List WBody)
    (h : pinnedKept e px0 py0 vx0 vy0 w) :
    optAll (pinnedKept e px0 py0 vx0 vy0) (compute_gravity sq fuel cfg w) := by
  have hpv := compute_gravity_pvView sq fuel cfg w
  cases hg : compute_gravity sq fuel cfg w with
  | none => exact trivial
  | some w2 =>
    rw [hg] at hpv
    exact pinnedKept_of_pvView hpv h

theorem pinnedKept_map (f : WBody → WBody) (hfe : ∀ b, (f b).eid = b.eid)
    (hfp : ∀ b, b.pinned = true → f b = b) (e : ℕ) (px0 py0 vx0 vy0 : ℚ)
    (w : List WBody) (h : pinnedKept e px0 py0 vx0 vy0 w) :
    pinnedKept e px0 py0 vx0 vy0 (w.map f) := by
  obtain ⟨⟨b, hb, hbe⟩, hc⟩ := h
  constructor
  · exact ⟨f b, List.mem_map_of_mem f hb, (hfe b).trans hbe⟩
  · intro b2 hb2 hb2e
    obtain ⟨a, ha, rfl⟩ := List.mem_map.mp hb2
    have hae : a.eid = e := by rw [← hfe a]; exact hb2e
    have hfacts := hc a ha hae
    rw [hfp a hfacts.1]
    exact hfacts

theorem sieSubstep_kept (sq : ℚ → ℚ) (ms dtSub : ℚ) (e : ℕ) (px0 py0 vx0 vy0 : ℚ)
    (w : List WBody) (h : pinnedKept e px0 py0 vx0 vy0 w) :
    pinnedKept e px0 py0 vx0 vy0 (sieSubstep sq ms dtSub w) := by
  refine pinnedKept_map _ ?_ ?_ e px0 py0 vx0 vy0 w h
  · intro b
    by_cases hp : b.pinned = true <;> simp [hp]
  · intro b hp
    simp [hp]

theorem vvPass1_kept (dtSub : ℚ) (e : ℕ) (px0 py0 vx0 vy0 : ℚ)
    (w : List WBody) (h : pinnedKept e px0 py0 vx0 vy0 w) :
    pinnedKept e px0 py0 vx0 vy0 (vvPass1 dtSub w) := by
  refine pinnedKept_map _ ?_ ?_ e px0 py0 vx0 vy0 w h
  · intro b
    by_cases hp : b.pinned = true <;> simp [hp]
  · intro b hp
    simp [hp]

theorem vvPass2_kept (sq : ℚ → ℚ) (ms dtSub : ℚ) (e : ℕ) (px0 py0 vx0 vy0 : ℚ)
    (w : List WBody) (h : pinnedKept e px0 py0 vx0 vy0 w) :
    pinnedKept e px0 py0 vx0 vy0 (vvPass2 sq ms dtSub w) := by
  refine pinnedKept_map _ ?_ ?_ e px0 py0 vx0 vy0 w h
  · intro b
    by_cases hp : b.pinned = true <;> simp [hp]
  · intro b hp
    simp [hp]

theorem sieLoop_kept (sq : ℚ → ℚ) (fuel : ℕ) (cfg : Config) (dtSub : ℚ)
    (e : ℕ) (px0 py0 vx0 vy0 : ℚ) :
    ∀ (count : ℕ) (w : List WBody), pinnedKept e px0 py0 vx0 vy0 w →
      optAll (pinnedKept e px0 py0 vx0 vy0) (sieLoop sq fuel cfg dtSub count w) := by
  intro count
  induction count with
  | zero => intro w h; exact h
  | succ k ih =>
    intro w h
    cases k with
    | zero => exact sieSubstep_kept sq cfg.max_speed dtSub e px0 py0 vx0 vy0 w h
    | succ j =>
      show optAll _ ((compute_gravity sq fuel cfg (sieSubstep sq cfg.max_speed dtSub w)).bind
        (sieLoop sq fuel cfg dtSub (j + 1)))
      have h1 := sieSubstep_kept sq cfg.max_speed dtSub e px0 py0 vx0 vy0 w h
      have h2 := compute_gravity_kept sq fuel cfg e px0 py0 vx0 vy0 _ h1
      cases hg : compute_gravity sq fuel cfg (sieSubstep sq cfg.max_speed dtSub w) with
      | none => exact trivial
      | some w2 =>
        rw [hg] at h2
        exact ih w2 h2

theorem vvLoop_kept (sq : ℚ → ℚ) (fuel : ℕ) (cfg : Config) (dtSub : ℚ)
    (e : ℕ) (px0 py0 vx0 vy0 : ℚ) :
    ∀ (count : ℕ) (w : List WBody), pinnedKept e px0 py0 vx0 vy0 w →
      optAll (pinnedKept e px0 py0 vx0 vy0) (vvLoop sq fuel cfg dtSub count w) := by
  intro count
  induction count with
  | zero => intro w h; exact h
  | succ k ih =>
    intro w h
    show optAll _ ((compute_gravity sq fuel cfg (vvPass1 dtSub w)).bind fun w2 =>
      vvLoop sq fuel cfg dtSub k (vvPass2 sq cfg.max_speed dtSub w2))
    have h1 := vvPass1_kept dtSub e px0 py0 vx0 vy0 w h
    have h2 := compute_gravity_kept sq fuel cfg e px0 py0 vx0 vy0 _ h1
    cases hg : compute_gravity sq fuel cfg (vvPass1 dtSub w) with
    | none => exact trivial
    | some w2 =>
      rw [hg] at h2
      exact ih _ (vvPass2_kept sq cfg.max_speed dtSub e px0 py0 vx0 vy0 w2 h2)

theorem integrate_kept (sq : ℚ → ℚ) (fuel : ℕ) (cfg : Config) (dt : ℚ)
    (e : ℕ) (px0 py0 vx0 vy0 : ℚ) (w : List WBody)
    (h : pinnedKept e px0 py0 vx0 vy0 w) :
    optAll (pinnedKept e px0 py0 vx0 vy0) (integrate sq fuel cfg dt w) := by
  unfold integrate
  dsimp only
  by_cases hi : cfg.integrator = 0
  · rw [if_pos hi]
    exact sieLoop_kept sq fuel cfg _ e px0 py0 vx0 vy0 _ w h
  · rw [if_neg hi]
    exact vvLoop_kept sq fuel cfg _ e px0 py0 vx0 vy0 _ w h

theorem step_kept (dr sq : ℚ → ℚ) (fuel : ℕ) (cfg : Config) (baseDt : ℚ)
    (e : ℕ) (px0 py0 vx0 vy0 : ℚ) (w : List WBody)
    (hev : eventsAvoid dr e w) (h : pinnedKept e px0 py0 vx0 vy0 w) :
    optAll (pinnedKept e px0 py0 vx0 vy0) (step dr sq fuel cfg baseDt w) := by
  unfold step
  have h1 : pinnedKept e px0 py0 vx0 vy0 (resolve dr w) :=
    pinnedKept_of_eidView (resolveE_eidView dr e w hev) h
  have h2 := compute_gravity_kept sq fuel cfg e px0 py0 vx0 vy0 _ h1
  cases hg : compute_gravity sq fuel cfg (resolve dr w) with
  | none => exact trivial
  | some w2 =>
    rw [hg] at h2
    exact integrate_kept sq fuel cfg _ e px0 py0 vx0 vy0 w2 h2

/-- C1 (amended): a pinned body keeps its position and velocity bit-identically
across any number of simulation steps, provided no collision merge event of
those steps involves the pinned body's handle.  The gravity pass writes only
accelerations, the collision pass leaves the body untouched when no merge
names its handle, and both integrator schemes skip pinned bodies; but a merge
whose survivor is the pinned body rewrites its position and velocity, so that
proviso cannot be dropped (see the counterexample). -/
theorem c1_pinned_constant_without_merge (dr sq : ℚ → ℚ) (fuel : ℕ) (cfg : Config)
    (baseDt : ℚ) (e : ℕ) (px0 py0 vx0 vy0 : ℚ) (k : ℕ) (w : List WBody)
    (hev : ∀ m, m < k → optAll (eventsAvoid dr e) (stepIter dr sq fuel cfg baseDt m w))
    (h0 : pinnedKept e px0 py0 vx0 vy0 w) :
    optAll (pinnedKept e px0 py0 vx0 vy0) (stepIter dr sq fuel cfg baseDt k w) := by
  induction k generalizing w with
  | zero => exact h0
  | succ k ih =>
    have hev0 : eventsAvoid dr e w := hev 0 (Nat.succ_pos k)
    have hstep := step_kept dr sq fuel cfg baseDt e px0 py0 vx0 vy0 w hev0 h0
    show optAll _ ((step dr sq fuel cfg baseDt w).bind (stepIter dr sq fuel cfg baseDt k))
    cases hs : step dr sq fuel cfg baseDt w with
    | none => exact trivial
    | some w1 =>
      rw [hs] at hstep
      show optAll _ (stepIter dr sq fuel cfg baseDt k w1)
      refine ih w1 (fun m hm => ?_) hstep
      have hm1 := hev (m + 1) (Nat.succ_lt_succ hm)
      have hrw : stepIter dr sq fuel cfg baseDt (m + 1) w
          = stepIter dr sq fuel cfg baseDt m w1 := by
        show (step dr sq fuel cfg baseDt w).bind (stepIter dr sq fuel cfg baseDt m) = _
        rw [hs]
        rfl
      rw [hrw] at hm1
      exact hm1

/-- Witness for C1: a lone pinned body at (2, 3) with zero velocity, stepped
once; no merge event occurs, and the invariant is conserved. -/
theorem c1_pinned_constant_without_merge_witness :
    optAll (pinnedKept 7 2 3 0 0)
      (stepIter (fun _ => 1) (fun _ => 0) 4 ⟨1, 0, 0, 8, 1/2, false, false, 0, 1, 0, 1, 1⟩ 0 1
        [⟨7, 2, 3, 0, 0, 0, 0, 0, 0, 5, true, some 1⟩]) :=
  c1_pinned_constant_without_merge (fun _ => 1) (fun _ => 0) 4
    ⟨1, 0, 0, 8, 1/2, false, false, 0, 1, 0, 1, 1⟩ 0 7 2 3 0 0 1
    [⟨7, 2, 3, 0, 0, 0, 0, 0, 0, 5, true, some 1⟩]
    (by
      intro m hm
      obtain rfl : m = 0 := Nat.lt_one_iff.mp hm
      with_unfolding_all decide)
    (by with_unfolding_all decide)

/-- C1 counterexample to the unconditional claim: a pinned body of mass 5 at
rest at the origin overlaps a non-pinned body of mass 1 moving at velocity
(3, 0).  The collision pass merges them with the pinned body as survivor and
rewrites its velocity to the momentum-conserving (1/2, 0), so after one
simulation step the pinned body's velocity is no longer bit-identical to its
initial (0, 0). -/
theorem c1_pinned_merge_counterexample :
    stepIter (fun _ => 1) (fun _ => 0) 4 ⟨1, 0, 0, 8, 1/2, false, false, 0, 1, 0, 1, 1⟩ 0 1
        [⟨0, 0, 0, 0, 0, 0, 0, 0, 0, 5, true, some 1⟩,
         ⟨1, 0, 0, 3, 0, 0, 0, 0, 0, 1, false, some 1⟩]
      = some [⟨0, 0, 0, 1/2, 0, 0, 0, 0, 0, 6, true, some 1⟩] ∧ (1/2 : ℚ) ≠ 0 := by
  constructor
  · with_unfolding_all decide
  · with_unfolding_all decide
